import Mathlib

/-!
# Verification of the libshaiya archive core

A shallow embedding of the Shaiya archive reader (`src/utils.rs`,
`src/archive/file.rs`, `src/archive/mod.rs`) together with proofs about
the decoder, the path resolver and the payload accessor.

Conventions of the embedding:
* a byte stream is a `List Nat` (each element is one byte; theorems that
  depend on byte-ness carry an explicit `< 256` hypothesis);
* the fallible byte readers return `Option (value × rest)`;
* the two recursive procedures of the source (the folder-block decoder and
  the path resolver) are general-recursive in Rust; here they are written
  with an explicit fuel argument so that they are structurally recursive
  and kernel-computable.  The public wrappers instantiate the fuel with a
  value that provably never runs out (see the `*_irrel` / adequacy lemmas),
  so the wrappers compute exactly the source's partial functions;
* Rust methods that take `&mut self` are embedded in state-passing style:
  they return their result together with the updated state, and an error
  flag where the source returns `Result`.
-/

/-- A byte stream: one `Nat` per byte. -/
abbrev Bytes := List Nat

/-- Little-endian value of a byte list (least significant byte first). -/
def leNum : Bytes → Nat
  | [] => 0
  | b :: bs => b + 256 * leNum bs

/-- Read exactly `n` bytes from the front of the stream, or fail when fewer
are available (the `read_exact` contract used by all fixed-width reads). -/
def takeBytes (n : Nat) (l : Bytes) : Option (Bytes × Bytes) :=
  if n ≤ l.length then some (l.take n, l.drop n) else none

/-- `byteorder`'s `read_u32::<LittleEndian>`. -/
def readU32 (l : Bytes) : Option (Nat × Bytes) :=
  (takeBytes 4 l).map fun p => (leNum p.1, p.2)

/-- `byteorder`'s `read_u64::<LittleEndian>`. -/
def readU64 (l : Bytes) : Option (Nat × Bytes) :=
  (takeBytes 8 l).map fun p => (leNum p.1, p.2)

/-- Reinterpret an unsigned 32-bit value as a two's-complement `i32`. -/
def toI32 (n : Nat) : Int :=
  if n < 2147483648 then (n : Int) else (n : Int) - 4294967296

/-- `byteorder`'s `read_i32::<LittleEndian>`. -/
def readI32 (l : Bytes) : Option (Int × Bytes) :=
  (takeBytes 4 l).map fun p => (toI32 (leNum p.1), p.2)

/-- Is `b` a UTF-8 continuation byte (`0x80..=0xBF`)? -/
def utf8Cont (b : Nat) : Bool := 128 ≤ b ∧ b < 192

/-- Valid second byte of a three-byte UTF-8 sequence with lead `b`
(the lead-dependent ranges of Rust's UTF-8 validation: `0xE0` requires
`0xA0..=0xBF`, `0xED` requires `0x80..=0x9F`, the rest plain continuations). -/
def utf8Cont3 (b b2 : Nat) : Bool :=
  if b = 224 then 160 ≤ b2 ∧ b2 < 192
  else if b = 237 then 128 ≤ b2 ∧ b2 < 160
  else utf8Cont b2

/-- Valid second byte of a four-byte UTF-8 sequence with lead `b`
(`0xF0` requires `0x90..=0xBF`, `0xF4` requires `0x80..=0x8F`). -/
def utf8Cont4 (b b2 : Nat) : Bool :=
  if b = 240 then 144 ≤ b2 ∧ b2 < 192
  else if b = 244 then 128 ≤ b2 ∧ b2 < 144
  else utf8Cont b2

/-- The replacement character U+FFFD. -/
def repl : Char := Char.ofNat 65533

/-- `String::from_utf8_lossy`: decode UTF-8, replacing each maximal invalid
sequence with one U+FFFD, per Rust's validation ranges and error lengths
(an invalid lead consumes one byte; a valid prefix of a multi-byte sequence
followed by an invalid byte consumes just that prefix; a truncated sequence
at the end of the input yields a single U+FFFD). -/
def utf8Lossy : List Nat → List Char
  | [] => []
  | b :: bs =>
    if b < 128 then Char.ofNat b :: utf8Lossy bs
    else if 194 ≤ b ∧ b < 224 then
      match bs with
      | b2 :: bs2 =>
        if utf8Cont b2 then
          Char.ofNat ((b - 192) * 64 + (b2 - 128)) :: utf8Lossy bs2
        else repl :: utf8Lossy (b2 :: bs2)
      | [] => [repl]
    else if 224 ≤ b ∧ b < 240 then
      match bs with
      | b2 :: bs2 =>
        if utf8Cont3 b b2 then
          match bs2 with
          | b3 :: bs3 =>
            if utf8Cont b3 then
              Char.ofNat ((b - 224) * 4096 + (b2 - 128) * 64 + (b3 - 128)) :: utf8Lossy bs3
            else repl :: utf8Lossy (b3 :: bs3)
          | [] => [repl]
        else repl :: utf8Lossy (b2 :: bs2)
      | [] => [repl]
    else if 240 ≤ b ∧ b < 245 then
      match bs with
      | b2 :: bs2 =>
        if utf8Cont4 b b2 then
          match bs2 with
          | b3 :: bs3 =>
            if utf8Cont b3 then
              match bs3 with
              | b4 :: bs4 =>
                if utf8Cont b4 then
                  Char.ofNat ((b - 240) * 262144 + (b2 - 128) * 4096 + (b3 - 128) * 64 + (b4 - 128)) :: utf8Lossy bs4
                else repl :: utf8Lossy (b4 :: bs4)
              | [] => [repl]
            else repl :: utf8Lossy (b3 :: bs3)
          | [] => [repl]
        else repl :: utf8Lossy (b2 :: bs2)
      | [] => [repl]
    else repl :: utf8Lossy bs

/-- `utils.rs`, `read_fixed_length_string`: read exactly `n` bytes
(`read_exact`, failing when fewer are available), drop the final byte when
it is zero, and decode the rest lossily as UTF-8. -/
def readString (n : Nat) (l : Bytes) : Option (String × Bytes) :=
  (takeBytes n l).map fun p =>
    (String.mk (utf8Lossy (if p.1.getLast? = some 0 then p.1.dropLast else p.1)), p.2)

/-- `file.rs`, `SFile`: an entry of file data. -/
structure SFile where
  name : String
  offset : Nat
  length : Nat
  checksum : Int
deriving DecidableEq

/-- `file.rs`, `SFolder`: a virtual folder in a Shaiya archive. -/
inductive SFolder where
  | mk : String → List SFile → List SFolder → SFolder

/-- The name of a folder. -/
def SFolder.name : SFolder → String
  | .mk n _ _ => n

/-- The files in a folder (`SFolder::files`). -/
def SFolder.files : SFolder → List SFile
  | .mk _ fs _ => fs

/-- The subdirectories of a folder (`SFolder::subdirectories`). -/
def SFolder.folders : SFolder → List SFolder
  | .mk _ _ ds => ds

/-- `SFolder::new`: an empty folder with the given name. -/
def SFolder.new (name : String) : SFolder := .mk name [] []

/-- Lower-case an ASCII letter, leave every other character alone
(`u8::to_ascii_lowercase`, lifted to the characters of a string; on the
byte level ASCII lowering only rewrites the bytes `0x41..=0x5A`, which in
UTF-8 occur exactly as the ASCII capital letters, so the character-wise
map agrees with Rust's byte-wise one). -/
def asciiLower (c : Char) : Char :=
  if 'A' ≤ c ∧ c ≤ 'Z' then Char.ofNat (c.toNat + 32) else c

/-- `str::eq_ignore_ascii_case`. -/
def eqIgnoreAsciiCase (a b : String) : Bool :=
  a.data.map asciiLower == b.data.map asciiLower

/-- The file-scan of `SFolder::get`'s loop body: the first file of the
folder whose name matches `part` case-insensitively. -/
def findFile (files : List SFile) (part : String) : Option SFile :=
  files.find? fun f => eqIgnoreAsciiCase f.name part

/-- The folder-scan of `SFolder::get`'s loop body: the first sub-folder
whose name matches `part` case-insensitively. -/
def findFolder (folders : List SFolder) (part : String) : Option SFolder :=
  folders.find? fun d => eqIgnoreAsciiCase d.name part

/-- `file.rs`, `SFolder::get`, fuelled.  `scan` is the iterator over the
remaining parts (`for part in parts.into_iter()`), `parts` the deque
itself.  For each scanned part: a case-insensitive file match returns that
file at once; otherwise a case-insensitive sub-folder match pops the front
of the deque and recurses into the sub-folder; otherwise the scan moves on.
An exhausted scan returns `none`.  The outer `Option` layer is fuel
exhaustion, which the wrapper's fuel provably never reaches. -/
def getScanF : Nat → SFolder → List String → List String → Option (Option SFile)
  | 0, _, _, _ => none
  | _ + 1, _, [], _ => some none
  | fu + 1, folder, part :: rest, parts =>
    match findFile folder.files part with
    | some f => some (some f)
    | none =>
      match findFolder folder.folders part with
      | some sub => getScanF fu sub parts.tail parts.tail
      | none => getScanF fu folder rest parts

/-- Termination measure for `getScanF`: every step either shortens the
scan by one or descends with `parts.tail`, and both strictly decrease it. -/
def getMeasure (scan parts : List String) : Nat :=
  scan.length + (parts.length + 1) * parts.length

/-- Fuel sufficient for `getScanF` (one more than the measure). -/
def getFuel (scan parts : List String) : Nat :=
  getMeasure scan parts + 1

/-- `file.rs`, `SFolder::get` at adequate fuel. -/
def SFolder.get (folder : SFolder) (parts : List String) : Option SFile :=
  (getScanF (getFuel parts parts) folder parts parts).getD none

/-- Rust's `str::split` on the single-character pattern `'/'`: `acc` holds
the current segment reversed.  (`"".split("/")` yields `[""]`.) -/
def splitSeg : List Char → List Char → List String
  | [], acc => [String.mk acc.reverse]
  | c :: cs, acc =>
    if c = '/' then String.mk acc.reverse :: splitSeg cs [] else splitSeg cs (c :: acc)

/-- A file handle: the file's contents plus the handle's read position. -/
structure FileHandle where
  contents : Bytes
  pos : Nat
deriving DecidableEq

/-- `mod.rs`, `Archive`: the two open handles and the decoded tree. -/
structure Archive where
  header_file : FileHandle
  data_file : FileHandle
  root : SFolder

/-- `file.rs`, the file-entry loop of `SFolder::parse`: read `count`
entries of `{name_len:u32, name, offset:u64, length:u32, checksum:i32}` in
order, appending each file in read order.  On a failed read the flag is
`false` and the files parsed so far are kept (the source pushes each file
before reading the next). -/
def parseFilesP : Nat → Bytes → Bool × List SFile × Bytes
  | 0, l => (true, [], l)
  | c + 1, l =>
    match readU32 l with
    | none => (false, [], l)
    | some (nlen, l1) =>
      match readString nlen l1 with
      | none => (false, [], l1)
      | some (fname, l2) =>
        match readU64 l2 with
        | none => (false, [], l2)
        | some (offset, l3) =>
          match readU32 l3 with
          | none => (false, [], l3)
          | some (length, l4) =>
            match readI32 l4 with
            | none => (false, [], l4)
            | some (checksum, l5) =>
              match parseFilesP c l5 with
              | (ok, fs, r) => (ok, ⟨fname, offset, length, checksum⟩ :: fs, r)

mutual

/-- `file.rs`, the body of `SFolder::parse`, fuelled: a 4-byte LE file
count, that many file entries, a 4-byte LE sub-folder count, then that many
`{name_len:u32, name, nested block}` entries, each nested block consumed
recursively from the same cursor.  Returns the success flag, the files and
fully-parsed sub-folders pushed so far (a sub-folder whose own parse fails
is not pushed, matching the `?` before `push`), and the remaining bytes.
`none` is fuel exhaustion, which the wrappers' fuel provably never
reaches. -/
def parseBodyF : Nat → Bytes → Option (Bool × List SFile × List SFolder × Bytes)
  | 0, _ => none
  | fu + 1, l =>
    match readU32 l with
    | none => some (false, [], [], l)
    | some (fq, l1) =>
      match parseFilesP fq l1 with
      | (false, fs, l2) => some (false, fs, [], l2)
      | (true, fs, l2) =>
        match readU32 l2 with
        | none => some (false, fs, [], l2)
        | some (dq, l3) =>
          match parseFoldersF fu dq l3 with
          | none => none
          | some (ok, ds, r) => some (ok, fs, ds, r)

/-- The sub-folder loop of `SFolder::parse`, fuelled: read `count` entries
of `{name_len:u32, name, nested block}`, appending each fully-parsed child
in read order. -/
def parseFoldersF : Nat → Nat → Bytes → Option (Bool × List SFolder × Bytes)
  | 0, _, _ => none
  | _ + 1, 0, l => some (true, [], l)
  | fu + 1, c + 1, l =>
    match readU32 l with
    | none => some (false, [], l)
    | some (nlen, l1) =>
      match readString nlen l1 with
      | none => some (false, [], l1)
      | some (dname, l2) =>
        match parseBodyF fu l2 with
        | none => none
        | some (false, _, _, r) => some (false, [], r)
        | some (true, fs, ds, r) =>
          match parseFoldersF fu c r with
          | none => none
          | some (ok, ds', r') => some (ok, SFolder.mk dname fs ds :: ds', r')

end

/-- `file.rs`, `SFolder::parse` at adequate fuel: parse a folder block,
appending the parsed files and sub-folders to `self`'s existing lists (the
source pushes onto `self.files` / `self.folders`).  Returns the success
flag, the updated folder (partially filled on failure, exactly as the
in-place mutation leaves it), and the remaining bytes. -/
def SFolder.parseP (self : SFolder) (l : Bytes) : Bool × SFolder × Bytes :=
  match parseBodyF (l.length + 1) l with
  | some (ok, fs, ds, r) => (ok, .mk self.name (self.files ++ fs) (self.folders ++ ds), r)
  | none => (false, self, l)

/-- `mod.rs`, `Archive::parse`, state-passing: `read_to_end` the header
handle (from its current position, leaving it at end of file), check the
3-byte magic against `"SAH"`, skip 4+4+40 reserved bytes, read the root
name, replace `self.root` by an empty folder of that name and parse its
contents.  The flag is `false` exactly when the source returns `Err`;
mutations performed before the failing step persist, as under `&mut self`. -/
def Archive.parse (a : Archive) : Bool × Archive :=
  let hd := a.header_file.contents.drop a.header_file.pos
  let a1 : Archive :=
    { a with header_file := { a.header_file with pos := a.header_file.contents.length } }
  match readString 3 hd with
  | none => (false, a1)
  | some (magic, r1) =>
    if magic = "SAH" then
      let r2 := r1.drop 48
      match readU32 r2 with
      | none => (false, a1)
      | some (rootLen, r3) =>
        match readString rootLen r3 with
        | none => (false, a1)
        | some (rootName, r4) =>
          match (SFolder.new rootName).parseP r4 with
          | (ok, folder, _) => (ok, { a1 with root := folder })
    else (false, a1)

/-- `mod.rs`, `Archive::open` on already-opened contents: build the archive
with fresh handles and the default `"data"` root, parse, and propagate a
parse failure as `none` (the partially mutated archive is dropped, never
returned). -/
def Archive.openM (hbytes dbytes : Bytes) : Option Archive :=
  let a0 : Archive := ⟨⟨hbytes, 0⟩, ⟨dbytes, 0⟩, SFolder.new "data"⟩
  match a0.parse with
  | (true, a1) => some a1
  | (false, _) => none

/-- `mod.rs`, `Archive::file_data`: allocate `file.length` zero bytes, seek
the data handle to `file.offset`, issue one `read` (which returns
`min(requested, available)` bytes and is not checked), and return the
buffer: the bytes actually read followed by the untouched residual
zeroes. -/
def Archive.file_data (a : Archive) (file : SFile) : Bytes × Archive :=
  let avail := (a.data_file.contents.drop file.offset).take file.length
  (avail ++ List.replicate (file.length - avail.length) 0,
   { a with data_file := { a.data_file with pos := file.offset + avail.length } })

/-- `mod.rs`, `Archive::get`: split the path on `"/"` and delegate to the
root folder's `get`.  Takes the archive by `&mut self` in the source, so
the embedding returns the (unchanged) state alongside the result. -/
def Archive.get (a : Archive) (path : String) : Option SFile × Archive :=
  (a.root.get (splitSeg path.data []), a)

/-! ## Spec-side definitions

`specGet` renders the path-resolution algorithm exactly as the claim words
it: at each folder, find the first remaining segment (scanning forward)
that matches a file (checked first) or a sub-folder; a file match returns
immediately, a folder match removes the front segment and recurses, and an
exhausted scan fails.  It is compared with the source-shaped
`SFolder.get`. -/

/-- First hit of a forward scan over the remaining segments: for each
candidate segment in order, a case-insensitive file match (checked first)
or sub-folder match. -/
def scanHit (folder : SFolder) : List String → Option (SFile ⊕ SFolder)
  | [] => none
  | part :: rest =>
    match findFile folder.files part with
    | some f => some (Sum.inl f)
    | none =>
      match findFolder folder.folders part with
      | some sub => some (Sum.inr sub)
      | none => scanHit folder rest

/-- The claim's wording of the resolver, fuelled (one unit per descent). -/
def specGetF : Nat → SFolder → List String → Option (Option SFile)
  | 0, _, _ => none
  | fu + 1, folder, parts =>
    match scanHit folder parts with
    | none => some none
    | some (Sum.inl f) => some (some f)
    | some (Sum.inr sub) => specGetF fu sub parts.tail

/-- The claim's wording of the resolver at adequate fuel. -/
def specGet (folder : SFolder) (parts : List String) : Option SFile :=
  (specGetF (parts.length + 1) folder parts).getD none

/-! ## A reference encoder for the on-disk format

A test-only serializer following the header layout of the spec (§6); the
decoder is proved to consume its output byte-for-byte, which formalises
the declared field order, and to reject every strict truncation of it. -/

/-- Serialize an unsigned 32-bit value, little-endian. -/
def encodeU32 (n : Nat) : Bytes :=
  [n % 256, n / 256 % 256, n / 65536 % 256, n / 16777216 % 256]

/-- Serialize an unsigned 64-bit value, little-endian. -/
def encodeU64 (n : Nat) : Bytes :=
  [n % 256, n / 256 % 256, n / 65536 % 256, n / 16777216 % 256,
   n / 4294967296 % 256, n / 1099511627776 % 256,
   n / 281474976710656 % 256, n / 72057594037927936 % 256]

/-- Serialize a signed 32-bit value, two's complement little-endian. -/
def encodeI32 (i : Int) : Bytes := encodeU32 (i % 4294967296).toNat

/-- Serialize a name: 4-byte length, then the name's (ASCII) bytes. -/
def encodeName (s : String) : Bytes := encodeU32 s.length ++ s.data.map Char.toNat

/-- Serialize one file entry: name, offset(u64), length(u32), checksum(i32). -/
def encodeFile (f : SFile) : Bytes :=
  encodeName f.name ++ encodeU64 f.offset ++ encodeU32 f.length ++ encodeI32 f.checksum

/-- Serialize a folder block: file count, file entries, sub-folder count,
then per sub-folder its name and nested block.  (Defined through the
recursor of the nested inductive; the kernel evaluates it, only the
compiler's code generator cannot, hence `noncomputable`.) -/
noncomputable def encodeBody : SFolder → Bytes :=
  @SFolder.rec (fun _ => Bytes) (fun _ => Bytes)
    (fun _ fs ds ih =>
      encodeU32 fs.length ++ (fs.map encodeFile).flatten ++ encodeU32 ds.length ++ ih)
    []
    (fun d _ ihd ihds => encodeName d.name ++ ihd ++ ihds)

/-- The serialized sub-folder entries of a folder list. -/
noncomputable def encodeList (ds : List SFolder) : Bytes :=
  (ds.map fun d => encodeName d.name ++ encodeBody d).flatten

/-- Serialize a whole header: magic `"SAH"`, 48 reserved bytes, the root
name, and the root's folder block. -/
noncomputable def mkHeader (f : SFolder) : Bytes :=
  [83, 65, 72] ++ List.replicate 48 0 ++ encodeName f.name ++ encodeBody f

/-! ## Well-formedness of trees (side conditions of the encoder) -/

/-- A name the format can carry faithfully: non-NUL ASCII characters and a
length that fits the 4-byte length field. -/
def goodName (s : String) : Prop :=
  s.length < 4294967296 ∧ ∀ c ∈ s.data, 0 < c.toNat ∧ c.toNat < 128

instance (s : String) : Decidable (goodName s) := by
  unfold goodName; infer_instance

/-- A file entry whose fields fit the on-disk widths. -/
def WFile (f : SFile) : Prop :=
  goodName f.name ∧ f.offset < 18446744073709551616 ∧ f.length < 4294967296 ∧
    -2147483648 ≤ f.checksum ∧ f.checksum < 2147483648

instance (f : SFile) : Decidable (WFile f) := by
  unfold WFile; infer_instance

/-- A tree whose names, counts and fields all fit the format. -/
inductive WFolder : SFolder → Prop where
  | mk {n : String} {fs : List SFile} {ds : List SFolder} :
      goodName n → fs.length < 4294967296 → ds.length < 4294967296 →
      (∀ f ∈ fs, WFile f) → (∀ d ∈ ds, WFolder d) → WFolder (.mk n fs ds)

/-- Membership of a file descriptor somewhere in a folder tree. -/
inductive FileInTree : SFile → SFolder → Prop where
  | here {f : SFile} {n : String} {fs : List SFile} {ds : List SFolder} :
      f ∈ fs → FileInTree f (.mk n fs ds)
  | there {f : SFile} {n : String} {fs : List SFile} {ds : List SFolder} {sub : SFolder} :
      sub ∈ ds → FileInTree f sub → FileInTree f (.mk n fs ds)

/-! ## Concrete data used by the witnesses -/

/-- A small example tree: root `data` holding `cl.tga` and a sub-folder
`item` holding `item.sdata`. -/
def exTree : SFolder :=
  .mk "data" [⟨"cl.tga", 0, 3, 0⟩] [.mk "item" [⟨"item.sdata", 3, 2, -7⟩] []]

/-- The example tree's header bytes, written out (equal to
`mkHeader exTree`). -/
def exHeader : Bytes :=
  [83, 65, 72] ++ List.replicate 48 0
  ++ [4, 0, 0, 0] ++ [100, 97, 116, 97]
  ++ [1, 0, 0, 0]
    ++ [6, 0, 0, 0] ++ [99, 108, 46, 116, 103, 97]
    ++ [0, 0, 0, 0, 0, 0, 0, 0] ++ [3, 0, 0, 0] ++ [0, 0, 0, 0]
  ++ [1, 0, 0, 0]
    ++ [4, 0, 0, 0] ++ [105, 116, 101, 109]
    ++ [1, 0, 0, 0]
      ++ [10, 0, 0, 0] ++ [105, 116, 101, 109, 46, 115, 100, 97, 116, 97]
      ++ [3, 0, 0, 0, 0, 0, 0, 0] ++ [2, 0, 0, 0] ++ [249, 255, 255, 255]
    ++ [0, 0, 0, 0]

/-- An example data file of five bytes. -/
def exData : Bytes := [10, 20, 30, 40, 50]

/-- The archive state produced by opening the example pair. -/
def exArchive : Archive := ⟨⟨exHeader, exHeader.length⟩, ⟨exData, 0⟩, exTree⟩

/-- An archive whose data file is 3 bytes long, used to exercise the
out-of-range payload read. -/
def shortArchive : Archive := ⟨⟨[], 0⟩, ⟨[1, 2, 3], 0⟩, SFolder.new "data"⟩

/-! ## Lemmas about the primitive readers -/

theorem string_data_length (s : String) : s.data.length = s.length := by
  cases s
  rfl

theorem string_mk_data (s : String) : String.mk s.data = s := by
  cases s
  rfl

theorem takeBytes_append {n : Nat} {X : Bytes} (Y : Bytes) (h : X.length = n) :
    takeBytes n (X ++ Y) = some (X, Y) := by
  subst h
  unfold takeBytes
  rw [if_pos (by simp)]
  rw [List.take_left, List.drop_left]

theorem takeBytes_short {n : Nat} {l : Bytes} (h : l.length < n) : takeBytes n l = none := by
  unfold takeBytes
  rw [if_neg (by omega)]

theorem takeBytes_some {n : Nat} {l a r : Bytes} (h : takeBytes n l = some (a, r)) :
    a = l.take n ∧ r = l.drop n ∧ n ≤ l.length := by
  by_cases hn : n ≤ l.length
  · unfold takeBytes at h
    rw [if_pos hn] at h
    simp only [Option.some.injEq, Prod.mk.injEq] at h
    exact ⟨h.1.symm, h.2.symm, hn⟩
  · rw [takeBytes_short (by omega)] at h
    cases h

theorem takeBytes_trunc {n : Nat} {X : Bytes} (Y : Bytes) (k : Nat) (h : X.length = n) :
    takeBytes n ((X ++ Y).take k) =
      if n ≤ k then some (X, Y.take (k - n)) else none := by
  subst h
  by_cases hk : X.length ≤ k
  · rw [if_pos hk]
    have hx : (X ++ Y).take k = X ++ Y.take (k - X.length) := by
      rw [List.take_append_eq_append_take, List.take_of_length_le hk]
    rw [hx, takeBytes_append _ rfl]
  · rw [if_neg hk]
    apply takeBytes_short
    simp only [List.length_take, List.length_append]
    omega

theorem readU32_append {X : Bytes} (Y : Bytes) (h : X.length = 4) :
    readU32 (X ++ Y) = some (leNum X, Y) := by
  rw [readU32, takeBytes_append Y h]
  rfl

theorem readU32_trunc {X : Bytes} (Y : Bytes) (k : Nat) (h : X.length = 4) :
    readU32 ((X ++ Y).take k) =
      if 4 ≤ k then some (leNum X, Y.take (k - 4)) else none := by
  rw [readU32, takeBytes_trunc Y k h]
  by_cases h4 : 4 ≤ k <;> simp [h4]

theorem readU32_short {l : Bytes} (h : l.length < 4) : readU32 l = none := by
  rw [readU32, takeBytes_short h]
  rfl

theorem readU32_some {l : Bytes} {v : Nat} {r : Bytes} (h : readU32 l = some (v, r)) :
    v = leNum (l.take 4) ∧ r = l.drop 4 ∧ 4 ≤ l.length := by
  rw [readU32, Option.map_eq_some'] at h
  obtain ⟨⟨a, r'⟩, hta, hfa⟩ := h
  obtain ⟨ha, hr, hlen⟩ := takeBytes_some hta
  simp only [Prod.mk.injEq] at hfa
  exact ⟨hfa.1.symm.trans (by rw [ha]), hfa.2.symm.trans hr, hlen⟩

theorem readU64_append {X : Bytes} (Y : Bytes) (h : X.length = 8) :
    readU64 (X ++ Y) = some (leNum X, Y) := by
  rw [readU64, takeBytes_append Y h]
  rfl

theorem readU64_trunc {X : Bytes} (Y : Bytes) (k : Nat) (h : X.length = 8) :
    readU64 ((X ++ Y).take k) =
      if 8 ≤ k then some (leNum X, Y.take (k - 8)) else none := by
  rw [readU64, takeBytes_trunc Y k h]
  by_cases h8 : 8 ≤ k <;> simp [h8]

theorem readU64_some {l : Bytes} {v : Nat} {r : Bytes} (h : readU64 l = some (v, r)) :
    v = leNum (l.take 8) ∧ r = l.drop 8 ∧ 8 ≤ l.length := by
  rw [readU64, Option.map_eq_some'] at h
  obtain ⟨⟨a, r'⟩, hta, hfa⟩ := h
  obtain ⟨ha, hr, hlen⟩ := takeBytes_some hta
  simp only [Prod.mk.injEq] at hfa
  exact ⟨hfa.1.symm.trans (by rw [ha]), hfa.2.symm.trans hr, hlen⟩

theorem readI32_append {X : Bytes} (Y : Bytes) (h : X.length = 4) :
    readI32 (X ++ Y) = some (toI32 (leNum X), Y) := by
  rw [readI32, takeBytes_append Y h]
  rfl

theorem readI32_trunc {X : Bytes} (Y : Bytes) (k : Nat) (h : X.length = 4) :
    readI32 ((X ++ Y).take k) =
      if 4 ≤ k then some (toI32 (leNum X), Y.take (k - 4)) else none := by
  rw [readI32, takeBytes_trunc Y k h]
  by_cases h4 : 4 ≤ k <;> simp [h4]

theorem readI32_some {l : Bytes} {v : Int} {r : Bytes} (h : readI32 l = some (v, r)) :
    r = l.drop 4 ∧ 4 ≤ l.length := by
  rw [readI32, Option.map_eq_some'] at h
  obtain ⟨⟨a, r'⟩, hta, hfa⟩ := h
  obtain ⟨_, hr, hlen⟩ := takeBytes_some hta
  simp only [Prod.mk.injEq] at hfa
  exact ⟨hfa.2.symm.trans hr, hlen⟩

theorem readString_short {n : Nat} {l : Bytes} (h : l.length < n) : readString n l = none := by
  rw [readString, takeBytes_short h]
  rfl

theorem readString_some {n : Nat} {l : Bytes} {s : String} {r : Bytes}
    (h : readString n l = some (s, r)) : r = l.drop n ∧ n ≤ l.length := by
  rw [readString, Option.map_eq_some'] at h
  obtain ⟨⟨a, r'⟩, hta, hfa⟩ := h
  obtain ⟨_, hr, hlen⟩ := takeBytes_some hta
  simp only [Prod.mk.injEq] at hfa
  exact ⟨hfa.2.symm.trans hr, hlen⟩

/-! ## Lemmas about the encoders -/

theorem leNum_encodeU32 {n : Nat} (h : n < 4294967296) : leNum (encodeU32 n) = n := by
  simp only [encodeU32, leNum]
  omega

theorem leNum_encodeU64 {n : Nat} (h : n < 18446744073709551616) :
    leNum (encodeU64 n) = n := by
  simp only [encodeU64, leNum]
  omega

theorem toI32_encodeI32 {i : Int} (h1 : -2147483648 ≤ i) (h2 : i < 2147483648) :
    toI32 (leNum (encodeI32 i)) = i := by
  have hm : (0 : Int) ≤ i % 4294967296 := Int.emod_nonneg i (by norm_num)
  have hm2 : i % 4294967296 < 4294967296 := Int.emod_lt_of_pos i (by norm_num)
  rw [encodeI32, leNum_encodeU32 (by omega)]
  unfold toI32
  split <;> omega

/-! ## Lemmas about the lossy UTF-8 decoder -/

theorem char_toNat_ofNat {n : Nat} (h : n.isValidChar) : (Char.ofNat n).toNat = n := by
  simp only [Char.ofNat, h, dif_pos]
  rfl

theorem utf8Lossy_ascii : ∀ {bs : List Nat}, (∀ b ∈ bs, b < 128) →
    utf8Lossy bs = bs.map Char.ofNat := by
  intro bs h
  induction bs with
  | nil => rfl
  | cons b bs ih =>
    have hb : b < 128 := h b (List.mem_cons_self b bs)
    rw [utf8Lossy.eq_def]
    simp only [if_pos hb, List.map_cons]
    exact congrArg _ (ih fun x hx => h x (List.mem_cons_of_mem b hx))

theorem utf8Lossy_step (b : Nat) (bs : List Nat) :
    ∃ c k, utf8Lossy (b :: bs) = c :: utf8Lossy (bs.drop k) := by
  by_cases h1 : b < 128
  · exact ⟨Char.ofNat b, 0, by rw [utf8Lossy.eq_def]; simp [h1]⟩
  by_cases h2 : 194 ≤ b ∧ b < 224
  · match bs with
    | [] => exact ⟨repl, 0, by rw [utf8Lossy.eq_def]; simp [h1, h2]; rfl⟩
    | b2 :: bs2 =>
      by_cases h3 : utf8Cont b2
      · exact ⟨Char.ofNat ((b - 192) * 64 + (b2 - 128)), 1, by
          rw [utf8Lossy.eq_def]; simp [h1, h2, h3]⟩
      · exact ⟨repl, 0, by rw [utf8Lossy.eq_def]; simp [h1, h2, h3]⟩
  by_cases h4 : 224 ≤ b ∧ b < 240
  · match bs with
    | [] => exact ⟨repl, 0, by rw [utf8Lossy.eq_def]; simp [h1, h2, h4]; rfl⟩
    | b2 :: bs2 =>
      by_cases h5 : utf8Cont3 b b2
      · match bs2 with
        | [] => exact ⟨repl, 1, by rw [utf8Lossy.eq_def]; simp [h1, h2, h4, h5]; rfl⟩
        | b3 :: bs3 =>
          by_cases h6 : utf8Cont b3
          · exact ⟨Char.ofNat ((b - 224) * 4096 + (b2 - 128) * 64 + (b3 - 128)), 2, by
              rw [utf8Lossy.eq_def]; simp [h1, h2, h4, h5, h6]⟩
          · exact ⟨repl, 1, by rw [utf8Lossy.eq_def]; simp [h1, h2, h4, h5, h6]⟩
      · exact ⟨repl, 0, by rw [utf8Lossy.eq_def]; simp [h1, h2, h4, h5]⟩
  by_cases h7 : 240 ≤ b ∧ b < 245
  · match bs with
    | [] => exact ⟨repl, 0, by rw [utf8Lossy.eq_def]; simp [h1, h2, h4, h7]; rfl⟩
    | b2 :: bs2 =>
      by_cases h5 : utf8Cont4 b b2
      · match bs2 with
        | [] => exact ⟨repl, 1, by rw [utf8Lossy.eq_def]; simp [h1, h2, h4, h7, h5]; rfl⟩
        | b3 :: bs3 =>
          by_cases h6 : utf8Cont b3
          · match bs3 with
            | [] => exact ⟨repl, 2, by rw [utf8Lossy.eq_def]; simp [h1, h2, h4, h7, h5, h6]; rfl⟩
            | b4 :: bs4 =>
              by_cases h8 : utf8Cont b4
              · exact ⟨Char.ofNat ((b - 240) * 262144 + (b2 - 128) * 4096 + (b3 - 128) * 64 + (b4 - 128)), 3, by
                  rw [utf8Lossy.eq_def]; simp [h1, h2, h4, h7, h5, h6, h8]⟩
              · exact ⟨repl, 2, by rw [utf8Lossy.eq_def]; simp [h1, h2, h4, h7, h5, h6, h8]⟩
          · exact ⟨repl, 1, by rw [utf8Lossy.eq_def]; simp [h1, h2, h4, h7, h5, h6]⟩
      · exact ⟨repl, 0, by rw [utf8Lossy.eq_def]; simp [h1, h2, h4, h7, h5]⟩
  · exact ⟨repl, 0, by rw [utf8Lossy.eq_def]; simp [h1, h2, h4, h7]⟩

theorem utf8Lossy_length_le (bs : List Nat) : (utf8Lossy bs).length ≤ bs.length := by
  generalize hN : bs.length = N
  induction N using Nat.strong_induction_on generalizing bs with
  | _ N ih =>
    match bs with
    | [] => simp [utf8Lossy]
    | b :: bs' =>
      obtain ⟨c, k, hck⟩ := utf8Lossy_step b bs'
      rw [hck]
      have hlt : (bs'.drop k).length < N := by
        simp only [List.length_drop]
        simp only [List.length_cons] at hN
        omega
      have := ih (bs'.drop k).length hlt (bs'.drop k) rfl
      simp only [List.length_cons, List.length_drop] at *
      omega

theorem two_byte_val {b b2 : Nat} (h2 : 194 ≤ b ∧ b < 224) (hc : utf8Cont b2 = true) :
    128 ≤ (b - 192) * 64 + (b2 - 128) ∧ Nat.isValidChar ((b - 192) * 64 + (b2 - 128)) := by
  simp only [utf8Cont, decide_eq_true_eq, Bool.and_eq_true] at hc
  refine ⟨by omega, ?_⟩
  simp only [Nat.isValidChar]
  omega

theorem three_byte_val {b b2 b3 : Nat} (h4 : 224 ≤ b ∧ b < 240) (hc3 : utf8Cont3 b b2 = true)
    (hc : utf8Cont b3 = true) :
    128 ≤ (b - 224) * 4096 + (b2 - 128) * 64 + (b3 - 128) ∧
      Nat.isValidChar ((b - 224) * 4096 + (b2 - 128) * 64 + (b3 - 128)) := by
  simp only [utf8Cont, decide_eq_true_eq, Bool.and_eq_true] at hc
  simp only [Nat.isValidChar]
  by_cases hb : b = 224
  · subst hb
    rw [show utf8Cont3 224 b2 = decide (160 ≤ b2 ∧ b2 < 192) from rfl,
      decide_eq_true_eq] at hc3
    exact ⟨by omega, by omega⟩
  by_cases hb' : b = 237
  · subst hb'
    rw [show utf8Cont3 237 b2 = decide (128 ≤ b2 ∧ b2 < 160) from rfl,
      decide_eq_true_eq] at hc3
    exact ⟨by omega, by omega⟩
  · unfold utf8Cont3 at hc3
    rw [if_neg hb, if_neg hb'] at hc3
    simp only [utf8Cont, decide_eq_true_eq, Bool.and_eq_true] at hc3
    exact ⟨by omega, by omega⟩

theorem four_byte_val {b b2 b3 b4 : Nat} (h7 : 240 ≤ b ∧ b < 245) (hc4 : utf8Cont4 b b2 = true)
    (hc : utf8Cont b3 = true) (hc' : utf8Cont b4 = true) :
    128 ≤ (b - 240) * 262144 + (b2 - 128) * 4096 + (b3 - 128) * 64 + (b4 - 128) ∧
      Nat.isValidChar ((b - 240) * 262144 + (b2 - 128) * 4096 + (b3 - 128) * 64 + (b4 - 128)) := by
  simp only [utf8Cont, decide_eq_true_eq, Bool.and_eq_true] at hc hc'
  simp only [Nat.isValidChar]
  by_cases hb : b = 240
  · subst hb
    rw [show utf8Cont4 240 b2 = decide (144 ≤ b2 ∧ b2 < 192) from rfl,
      decide_eq_true_eq] at hc4
    exact ⟨by omega, by omega⟩
  by_cases hb' : b = 244
  · subst hb'
    rw [show utf8Cont4 244 b2 = decide (128 ≤ b2 ∧ b2 < 144) from rfl,
      decide_eq_true_eq] at hc4
    exact ⟨by omega, by omega⟩
  · unfold utf8Cont4 at hc4
    rw [if_neg hb, if_neg hb'] at hc4
    simp only [utf8Cont, decide_eq_true_eq, Bool.and_eq_true] at hc4
    exact ⟨by omega, by omega⟩

theorem repl_toNat : repl.toNat = 65533 := by decide

/-- The first character of a lossy decode is ASCII only when the first
byte is that very character's code: multi-byte sequences decode to code
points at least `0x80` and failures to U+FFFD. -/
theorem utf8Lossy_cons_ascii {b : Nat} {bs : List Nat} {c : Char} {cs : List Char}
    (h : utf8Lossy (b :: bs) = c :: cs) (hc : c.toNat < 128) :
    b = c.toNat ∧ utf8Lossy bs = cs := by
  by_cases h1 : b < 128
  · have hstep : utf8Lossy (b :: bs) = Char.ofNat b :: utf8Lossy bs := by
      rw [utf8Lossy.eq_def]; simp [h1]
    rw [hstep] at h
    injection h with hh ht
    refine ⟨?_, ht⟩
    rw [← hh, char_toNat_ofNat (Or.inl (by omega))]
  exfalso
  have hrepl : ¬ (repl = c) := by
    intro he
    rw [← he, repl_toNat] at hc
    omega
  by_cases h2 : 194 ≤ b ∧ b < 224
  · match bs with
    | [] =>
      have hstep : utf8Lossy [b] = [repl] := by
        rw [utf8Lossy.eq_def]; simp [h1, h2]
      rw [hstep] at h
      injection h with hh _
      exact hrepl hh
    | b2 :: bs2 =>
      by_cases h3 : utf8Cont b2
      · have hstep : utf8Lossy (b :: b2 :: bs2) =
            Char.ofNat ((b - 192) * 64 + (b2 - 128)) :: utf8Lossy bs2 := by
          rw [utf8Lossy.eq_def]; simp [h1, h2, h3]
        rw [hstep] at h
        injection h with hh _
        obtain ⟨hv, hval⟩ := two_byte_val h2 h3
        rw [← hh, char_toNat_ofNat hval] at hc
        omega
      · have hstep : utf8Lossy (b :: b2 :: bs2) = repl :: utf8Lossy (b2 :: bs2) := by
          rw [utf8Lossy.eq_def]; simp [h1, h2, h3]
        rw [hstep] at h
        injection h with hh _
        exact hrepl hh
  by_cases h4 : 224 ≤ b ∧ b < 240
  · match bs with
    | [] =>
      have hstep : utf8Lossy [b] = [repl] := by
        rw [utf8Lossy.eq_def]; simp [h1, h2, h4]
      rw [hstep] at h
      injection h with hh _
      exact hrepl hh
    | b2 :: bs2 =>
      by_cases h5 : utf8Cont3 b b2
      · match bs2 with
        | [] =>
          have hstep : utf8Lossy [b, b2] = [repl] := by
            rw [utf8Lossy.eq_def]; simp [h1, h2, h4, h5]
          rw [hstep] at h
          injection h with hh _
          exact hrepl hh
        | b3 :: bs3 =>
          by_cases h6 : utf8Cont b3
          · have hstep : utf8Lossy (b :: b2 :: b3 :: bs3) =
                Char.ofNat ((b - 224) * 4096 + (b2 - 128) * 64 + (b3 - 128)) ::
                  utf8Lossy bs3 := by
              rw [utf8Lossy.eq_def]; simp [h1, h2, h4, h5, h6]
            rw [hstep] at h
            injection h with hh _
            obtain ⟨hv, hval⟩ := three_byte_val h4 h5 h6
            rw [← hh, char_toNat_ofNat hval] at hc
            omega
          · have hstep : utf8Lossy (b :: b2 :: b3 :: bs3) =
                repl :: utf8Lossy (b3 :: bs3) := by
              rw [utf8Lossy.eq_def]; simp [h1, h2, h4, h5, h6]
            rw [hstep] at h
            injection h with hh _
            exact hrepl hh
      · have hstep : utf8Lossy (b :: b2 :: bs2) = repl :: utf8Lossy (b2 :: bs2) := by
          rw [utf8Lossy.eq_def]; simp [h1, h2, h4, h5]
        rw [hstep] at h
        injection h with hh _
        exact hrepl hh
  by_cases h7 : 240 ≤ b ∧ b < 245
  · match bs with
    | [] =>
      have hstep : utf8Lossy [b] = [repl] := by
        rw [utf8Lossy.eq_def]; simp [h1, h2, h4, h7]
      rw [hstep] at h
      injection h with hh _
      exact hrepl hh
    | b2 :: bs2 =>
      by_cases h5 : utf8Cont4 b b2
      · match bs2 with
        | [] =>
          have hstep : utf8Lossy [b, b2] = [repl] := by
            rw [utf8Lossy.eq_def]; simp [h1, h2, h4, h7, h5]
          rw [hstep] at h
          injection h with hh _
          exact hrepl hh
        | b3 :: bs3 =>
          by_cases h6 : utf8Cont b3
          · match bs3 with
            | [] =>
              have hstep : utf8Lossy [b, b2, b3] = [repl] := by
                rw [utf8Lossy.eq_def]; simp [h1, h2, h4, h7, h5, h6]
              rw [hstep] at h
              injection h with hh _
              exact hrepl hh
            | b4 :: bs4 =>
              by_cases h8 : utf8Cont b4
              · have hstep : utf8Lossy (b :: b2 :: b3 :: b4 :: bs4) =
                    Char.ofNat ((b - 240) * 262144 + (b2 - 128) * 4096 +
                      (b3 - 128) * 64 + (b4 - 128)) :: utf8Lossy bs4 := by
                  rw [utf8Lossy.eq_def]; simp [h1, h2, h4, h7, h5, h6, h8]
                rw [hstep] at h
                injection h with hh _
                obtain ⟨hv, hval⟩ := four_byte_val h7 h5 h6 h8
                rw [← hh, char_toNat_ofNat hval] at hc
                omega
              · have hstep : utf8Lossy (b :: b2 :: b3 :: b4 :: bs4) =
                    repl :: utf8Lossy (b4 :: bs4) := by
                  rw [utf8Lossy.eq_def]; simp [h1, h2, h4, h7, h5, h6, h8]
                rw [hstep] at h
                injection h with hh _
                exact hrepl hh
          · have hstep : utf8Lossy (b :: b2 :: b3 :: bs3) =
                repl :: utf8Lossy (b3 :: bs3) := by
              rw [utf8Lossy.eq_def]; simp [h1, h2, h4, h7, h5, h6]
            rw [hstep] at h
            injection h with hh _
            exact hrepl hh
      · have hstep : utf8Lossy (b :: b2 :: bs2) = repl :: utf8Lossy (b2 :: bs2) := by
          rw [utf8Lossy.eq_def]; simp [h1, h2, h4, h7, h5]
        rw [hstep] at h
        injection h with hh _
        exact hrepl hh
  · have hstep : utf8Lossy (b :: bs) = repl :: utf8Lossy bs := by
      rw [utf8Lossy.eq_def]; simp [h1, h2, h4, h7]
    rw [hstep] at h
    injection h with hh _
    exact hrepl hh

/-- Among equal-length byte/character lists, an all-ASCII decode pins the
bytes down exactly. -/
theorem utf8Lossy_ascii_inj : ∀ (cs : List Char) (l : List Nat), utf8Lossy l = cs →
    (∀ c ∈ cs, c.toNat < 128) → l.length = cs.length → l = cs.map Char.toNat := by
  intro cs
  induction cs with
  | nil =>
    intro l _ _ hl
    simpa using List.length_eq_zero.mp (by simpa using hl)
  | cons c cs ih =>
    intro l h hc hl
    match l with
    | [] => simp [utf8Lossy] at h
    | b :: bs =>
      obtain ⟨hb, hrest⟩ := utf8Lossy_cons_ascii h (hc c (List.mem_cons_self c cs))
      have := ih bs hrest (fun x hx => hc x (List.mem_cons_of_mem c hx))
        (by simpa using hl)
      simp only [List.map_cons, List.cons.injEq]
      exact ⟨hb, this⟩

/-! ## Reading back encoded names -/

theorem goodName_bytes_lt {s : String} (h : goodName s) :
    ∀ b ∈ s.data.map Char.toNat, b < 128 := by
  intro b hb
  obtain ⟨c, hc, rfl⟩ := List.mem_map.mp hb
  exact (h.2 c hc).2

theorem goodName_getLast? {s : String} (h : goodName s) :
    (s.data.map Char.toNat).getLast? ≠ some 0 := by
  intro hlast
  have h0 : (0 : Nat) ∈ s.data.map Char.toNat := List.mem_of_mem_getLast? hlast
  obtain ⟨c, hc, hc0⟩ := List.mem_map.mp h0
  have := (h.2 c hc).1
  omega

theorem utf8Lossy_name {s : String} (h : goodName s) :
    utf8Lossy (s.data.map Char.toNat) = s.data := by
  rw [utf8Lossy_ascii (goodName_bytes_lt h), List.map_map]
  simp only [Function.comp_def, Char.ofNat_toNat, List.map_id_fun', id_eq]

theorem readString_name {s : String} (Y : Bytes) (h : goodName s) :
    readString s.length (s.data.map Char.toNat ++ Y) = some (s, Y) := by
  have hlen : (s.data.map Char.toNat).length = s.length := by
    rw [List.length_map, string_data_length]
  rw [readString, takeBytes_append Y hlen, Option.map_some']
  simp only [if_neg (goodName_getLast? h)]
  rw [utf8Lossy_name h, string_mk_data]

theorem readString_name_trunc {s : String} (Y : Bytes) (k : Nat) (h : goodName s) :
    readString s.length ((s.data.map Char.toNat ++ Y).take k) =
      if s.length ≤ k then some (s, Y.take (k - s.length)) else none := by
  have hlen : (s.data.map Char.toNat).length = s.length := by
    rw [List.length_map, string_data_length]
  rw [readString, takeBytes_trunc Y k hlen]
  by_cases hk : s.length ≤ k
  · rw [if_pos hk, if_pos hk, Option.map_some']
    simp only [if_neg (goodName_getLast? h)]
    rw [utf8Lossy_name h, string_mk_data]
  · rw [if_neg hk, if_neg hk]
    rfl

/-! ## The file-entry loop: round trip and truncation -/

theorem encodeU32_length (n : Nat) : (encodeU32 n).length = 4 := rfl

theorem encodeU64_length (n : Nat) : (encodeU64 n).length = 8 := rfl

theorem encodeI32_length (i : Int) : (encodeI32 i).length = 4 := rfl

theorem encodeName_length (s : String) : (encodeName s).length = 4 + s.length := by
  simp [encodeName, encodeU32, string_data_length]
  omega

theorem encodeFile_length (f : SFile) : (encodeFile f).length = 20 + f.name.length := by
  simp [encodeFile, encodeName, encodeU32, encodeU64, encodeI32, string_data_length]
  omega

/-- Characterization of the file-entry loop on (a truncation of) an
encoded entry list followed by anything: with enough bytes it returns
exactly the encoded files and leaves the tail untouched; truncated inside
the entries it fails. -/
theorem parseFilesP_encode (fs : List SFile) (h : ∀ f ∈ fs, WFile f) (Z : Bytes) (k : Nat) :
    ((fs.map encodeFile).flatten.length ≤ k →
      parseFilesP fs.length (((fs.map encodeFile).flatten ++ Z).take k) =
        (true, fs, Z.take (k - (fs.map encodeFile).flatten.length)))
    ∧ (k < (fs.map encodeFile).flatten.length →
      (parseFilesP fs.length (((fs.map encodeFile).flatten ++ Z).take k)).1 = false) := by
  induction fs generalizing Z k with
  | nil =>
    constructor
    · intro _
      simp [parseFilesP]
    · intro hk
      simp at hk
  | cons f fs ih =>
    obtain ⟨hgood, hoff, hlen, hck1, hck2⟩ := h f (List.mem_cons_self f fs)
    have hrest : ∀ g ∈ fs, WFile g := fun g hg => h g (List.mem_cons_of_mem f hg)
    have hshape : ((f :: fs).map encodeFile).flatten ++ Z =
        encodeU32 f.name.length ++ (f.name.data.map Char.toNat ++ (encodeU64 f.offset ++
          (encodeU32 f.length ++ (encodeI32 f.checksum ++
            ((fs.map encodeFile).flatten ++ Z))))) := by
      simp [encodeFile, encodeName, List.append_assoc]
    have hlen_cons : (((f :: fs).map encodeFile).flatten).length =
        20 + f.name.length + (fs.map encodeFile).flatten.length := by
      simp only [List.map_cons, List.flatten_cons, List.length_append, encodeFile_length]
    rw [List.length_cons, hshape]
    by_cases hk1 : 4 ≤ k
    case neg =>
      have hr1 : readU32 ((encodeU32 f.name.length ++ (f.name.data.map Char.toNat ++
          (encodeU64 f.offset ++ (encodeU32 f.length ++ (encodeI32 f.checksum ++
            ((fs.map encodeFile).flatten ++ Z)))))).take k) = none := by
        rw [readU32_trunc _ k (encodeU32_length _), if_neg hk1]
      refine ⟨fun hc => absurd hc (by rw [hlen_cons]; omega), fun _ => ?_⟩
      simp only [parseFilesP, hr1]
    have hr1 : readU32 ((encodeU32 f.name.length ++ (f.name.data.map Char.toNat ++
        (encodeU64 f.offset ++ (encodeU32 f.length ++ (encodeI32 f.checksum ++
          ((fs.map encodeFile).flatten ++ Z)))))).take k) =
        some (f.name.length, ((f.name.data.map Char.toNat ++ (encodeU64 f.offset ++
          (encodeU32 f.length ++ (encodeI32 f.checksum ++
            ((fs.map encodeFile).flatten ++ Z))))).take (k - 4))) := by
      rw [readU32_trunc _ k (encodeU32_length _), if_pos hk1, leNum_encodeU32 hgood.1]
    by_cases hk2 : 4 + f.name.length ≤ k
    case neg =>
      have hr2 : readString f.name.length ((f.name.data.map Char.toNat ++ (encodeU64 f.offset ++
          (encodeU32 f.length ++ (encodeI32 f.checksum ++
            ((fs.map encodeFile).flatten ++ Z))))).take (k - 4)) = none := by
        rw [readString_name_trunc _ _ hgood, if_neg (by omega)]
      refine ⟨fun hc => absurd hc (by rw [hlen_cons]; omega), fun _ => ?_⟩
      simp only [parseFilesP, hr1, hr2]
    have hr2 : readString f.name.length ((f.name.data.map Char.toNat ++ (encodeU64 f.offset ++
        (encodeU32 f.length ++ (encodeI32 f.checksum ++
          ((fs.map encodeFile).flatten ++ Z))))).take (k - 4)) =
        some (f.name, ((encodeU64 f.offset ++ (encodeU32 f.length ++ (encodeI32 f.checksum ++
          ((fs.map encodeFile).flatten ++ Z)))).take (k - 4 - f.name.length))) := by
      rw [readString_name_trunc _ _ hgood, if_pos (by omega)]
    by_cases hk3 : 12 + f.name.length ≤ k
    case neg =>
      have hr3 : readU64 ((encodeU64 f.offset ++ (encodeU32 f.length ++ (encodeI32 f.checksum ++
          ((fs.map encodeFile).flatten ++ Z)))).take (k - 4 - f.name.length)) = none := by
        rw [readU64_trunc _ _ (encodeU64_length _), if_neg (by omega)]
      refine ⟨fun hc => absurd hc (by rw [hlen_cons]; omega), fun _ => ?_⟩
      simp only [parseFilesP, hr1, hr2, hr3]
    have hr3 : readU64 ((encodeU64 f.offset ++ (encodeU32 f.length ++ (encodeI32 f.checksum ++
        ((fs.map encodeFile).flatten ++ Z)))).take (k - 4 - f.name.length)) =
        some (f.offset, ((encodeU32 f.length ++ (encodeI32 f.checksum ++
          ((fs.map encodeFile).flatten ++ Z))).take (k - 4 - f.name.length - 8))) := by
      rw [readU64_trunc _ _ (encodeU64_length _), if_pos (by omega), leNum_encodeU64 hoff]
    by_cases hk4 : 16 + f.name.length ≤ k
    case neg =>
      have hr4 : readU32 ((encodeU32 f.length ++ (encodeI32 f.checksum ++
          ((fs.map encodeFile).flatten ++ Z))).take (k - 4 - f.name.length - 8)) = none := by
        rw [readU32_trunc _ _ (encodeU32_length _), if_neg (by omega)]
      refine ⟨fun hc => absurd hc (by rw [hlen_cons]; omega), fun _ => ?_⟩
      simp only [parseFilesP, hr1, hr2, hr3, hr4]
    have hr4 : readU32 ((encodeU32 f.length ++ (encodeI32 f.checksum ++
        ((fs.map encodeFile).flatten ++ Z))).take (k - 4 - f.name.length - 8)) =
        some (f.length, ((encodeI32 f.checksum ++ ((fs.map encodeFile).flatten ++ Z)).take
          (k - 4 - f.name.length - 8 - 4))) := by
      rw [readU32_trunc _ _ (encodeU32_length _), if_pos (by omega), leNum_encodeU32 hlen]
    by_cases hk5 : 20 + f.name.length ≤ k
    case neg =>
      have hr5 : readI32 ((encodeI32 f.checksum ++ ((fs.map encodeFile).flatten ++ Z)).take
          (k - 4 - f.name.length - 8 - 4)) = none := by
        rw [readI32_trunc _ _ (encodeI32_length _), if_neg (by omega)]
      refine ⟨fun hc => absurd hc (by rw [hlen_cons]; omega), fun _ => ?_⟩
      simp only [parseFilesP, hr1, hr2, hr3, hr4, hr5]
    have hr5 : readI32 ((encodeI32 f.checksum ++ ((fs.map encodeFile).flatten ++ Z)).take
        (k - 4 - f.name.length - 8 - 4)) =
        some (f.checksum, (((fs.map encodeFile).flatten ++ Z).take
          (k - (20 + f.name.length)))) := by
      rw [readI32_trunc _ _ (encodeI32_length _), if_pos (by omega), toI32_encodeI32 hck1 hck2,
        show k - 4 - f.name.length - 8 - 4 - 4 = k - (20 + f.name.length) from by omega]
    obtain ⟨ih1, ih2⟩ := ih hrest Z (k - (20 + f.name.length))
    constructor
    · intro hc
      rw [hlen_cons] at hc
      simp only [parseFilesP, hr1, hr2, hr3, hr4, hr5, ih1 (by omega), hlen_cons]
      rw [show k - (20 + f.name.length) - (fs.map encodeFile).flatten.length =
        k - (20 + f.name.length + (fs.map encodeFile).flatten.length) from by omega]
    · intro hc
      rw [hlen_cons] at hc
      rcases hp : parseFilesP fs.length (((fs.map encodeFile).flatten ++ Z).take
        (k - (20 + f.name.length))) with ⟨ok, gs, r⟩
      rw [hp] at ih2
      simp only [parseFilesP, hr1, hr2, hr3, hr4, hr5, hp]
      exact ih2 (by omega)

/-! ## Unfolding the folder-body encoder -/

theorem sfolder_eta (d : SFolder) : SFolder.mk d.name d.files d.folders = d := by
  cases d
  rfl

theorem encodeList_nil : encodeList [] = [] := rfl

theorem encodeList_cons (d : SFolder) (ds : List SFolder) :
    encodeList (d :: ds) = (encodeName d.name ++ encodeBody d) ++ encodeList ds := by
  simp [encodeList]

theorem encodeBody_mk (n : String) (fs : List SFile) :
    ∀ ds : List SFolder, encodeBody (.mk n fs ds) =
      encodeU32 fs.length ++ (fs.map encodeFile).flatten ++ encodeU32 ds.length ++
        encodeList ds := by
  intro ds
  induction ds with
  | nil => rfl
  | cons d ds ih =>
    obtain ⟨X, hX1, hX2⟩ : ∃ X, encodeBody (.mk n fs ds) =
        encodeU32 fs.length ++ (fs.map encodeFile).flatten ++ encodeU32 ds.length ++ X ∧
        encodeBody (.mk n fs (d :: ds)) =
          encodeU32 fs.length ++ (fs.map encodeFile).flatten ++
            encodeU32 (d :: ds).length ++ (encodeName d.name ++ encodeBody d ++ X) :=
      ⟨_, rfl, rfl⟩
    rw [hX1] at ih
    have hXE : X = encodeList ds := List.append_cancel_left ih
    rw [hX2, hXE, encodeList_cons]

theorem encodeBody_length (n : String) (fs : List SFile) (ds : List SFolder) :
    (encodeBody (.mk n fs ds)).length =
      8 + (fs.map encodeFile).flatten.length + (encodeList ds).length := by
  rw [encodeBody_mk]
  simp [encodeU32]
  omega

/-! ## The folder-block decoder: round trip and truncation -/

theorem wfolder_inv {n : String} {fs : List SFile} {ds : List SFolder}
    (h : WFolder (.mk n fs ds)) :
    goodName n ∧ fs.length < 4294967296 ∧ ds.length < 4294967296 ∧
      (∀ f ∈ fs, WFile f) ∧ (∀ d ∈ ds, WFolder d) := by
  cases h
  exact ⟨‹_›, ‹_›, ‹_›, ‹_›, ‹_›⟩

theorem wfolder_goodName {d : SFolder} (h : WFolder d) : goodName d.name := by
  cases d
  exact (wfolder_inv h).1

theorem g1_of_some3 {p : Option (Bool × List SFolder × Bytes)} {x : List SFolder}
    {r : Bytes} {g : Bool × List SFolder × Bytes}
    (hval : p = some (false, x, r)) (hg : p = some g) : g.1 = false := by
  rw [hval] at hg
  cases hg
  rfl

theorem g1_of_some4 {p : Option (Bool × List SFile × List SFolder × Bytes)}
    {x : List SFile} {y : List SFolder} {r : Bytes}
    {g : Bool × List SFile × List SFolder × Bytes}
    (hval : p = some (false, x, y, r)) (hg : p = some g) : g.1 = false := by
  rw [hval] at hg
  cases hg
  rfl

theorem false_of_none {α : Type} {p : Option α} {g : α}
    (hval : p = none) (hg : p = some g) : False := by
  rw [hval] at hg
  cases hg

/-- Characterization of the folder-block decoder on (a truncation of) an
encoded body followed by anything: with enough bytes it reproduces exactly
the encoded files and sub-folders and leaves the tail untouched; truncated
anywhere inside the body it fails (for any fuel above the input length). -/
theorem parseBodyF_encode :
    ∀ (N : Nat) (f : SFolder), sizeOf f ≤ N → WFolder f →
      ∀ (Z : Bytes) (k fu : Nat), ((encodeBody f ++ Z).take k).length < fu →
        (((encodeBody f).length ≤ k →
          parseBodyF fu ((encodeBody f ++ Z).take k) =
            some (true, f.files, f.folders, Z.take (k - (encodeBody f).length))) ∧
        (k < (encodeBody f).length →
          ∀ g, parseBodyF fu ((encodeBody f ++ Z).take k) = some g → g.1 = false)) := by
  intro N
  induction N with
  | zero =>
    intro f hsz
    exact absurd hsz (by cases f; simp [SFolder.mk.sizeOf_spec])
  | succ N IH =>
    intro f hsz hwf Z k fu hfu
    obtain ⟨n, fs, ds⟩ := f
    obtain ⟨hgn, hfsl, hdsl, hwfs, hwds⟩ := wfolder_inv hwf
    have AUX : ∀ (ds' : List SFolder), (∀ d ∈ ds', sizeOf d ≤ N ∧ WFolder d) →
        ∀ (Z : Bytes) (k fu : Nat), ((encodeList ds' ++ Z).take k).length < fu →
          (((encodeList ds').length ≤ k →
            parseFoldersF fu ds'.length ((encodeList ds' ++ Z).take k) =
              some (true, ds', Z.take (k - (encodeList ds').length))) ∧
          (k < (encodeList ds').length →
            ∀ g, parseFoldersF fu ds'.length ((encodeList ds' ++ Z).take k) = some g →
              g.1 = false)) := by
      intro ds'
      induction ds' with
      | nil =>
        intro _ Z k fu hfu
        obtain ⟨fu', rfl⟩ : ∃ m, fu = m + 1 := ⟨fu - 1, by omega⟩
        constructor
        · intro _
          simp [parseFoldersF, encodeList_nil]
        · intro hk
          simp [encodeList_nil] at hk
      | cons d ds' ihds =>
        intro hall Z k fu hfu
        obtain ⟨hszd, hwfd⟩ := hall d (List.mem_cons_self d ds')
        have hrest : ∀ x ∈ ds', sizeOf x ≤ N ∧ WFolder x :=
          fun x hx => hall x (List.mem_cons_of_mem d hx)
        have hgd : goodName d.name := wfolder_goodName hwfd
        obtain ⟨fu'', rfl⟩ : ∃ m, fu = m + 1 := ⟨fu - 1, by omega⟩
        have hshape : encodeList (d :: ds') ++ Z =
            encodeU32 d.name.length ++ (d.name.data.map Char.toNat ++
              (encodeBody d ++ (encodeList ds' ++ Z))) := by
          rw [encodeList_cons]
          simp [encodeName, List.append_assoc]
        have hELc : (encodeList (d :: ds')).length =
            4 + d.name.length + (encodeBody d).length + (encodeList ds').length := by
          rw [encodeList_cons]
          simp [encodeName_length]
          omega
        have htklen : ∀ (m : Nat) (L M : Bytes), ((L ++ M).take m).length =
            min m (L.length + M.length) := by
          intro m L M
          simp [List.length_take, List.length_append]
        have hfu' : ((encodeList (d :: ds') ++ Z).take k).length =
            min k (4 + d.name.length + (encodeBody d).length +
              (encodeList ds').length + Z.length) := by
          rw [htklen, hELc]
        rw [List.length_cons, hshape]
        by_cases hk1 : 4 ≤ k
        case neg =>
          have hr1 : readU32 ((encodeU32 d.name.length ++ (d.name.data.map Char.toNat ++
              (encodeBody d ++ (encodeList ds' ++ Z)))).take k) = none := by
            rw [readU32_trunc _ k (encodeU32_length _), if_neg hk1]
          have hval : parseFoldersF (fu'' + 1) (ds'.length + 1)
              ((encodeU32 d.name.length ++ (d.name.data.map Char.toNat ++
                (encodeBody d ++ (encodeList ds' ++ Z)))).take k) =
              some (false, [], ((encodeU32 d.name.length ++ (d.name.data.map Char.toNat ++
                (encodeBody d ++ (encodeList ds' ++ Z)))).take k)) := by
            simp only [parseFoldersF, hr1]
          exact ⟨fun hc => absurd hc (by rw [hELc]; omega),
            fun _ g hg => g1_of_some3 hval hg⟩
        have hr1 : readU32 ((encodeU32 d.name.length ++ (d.name.data.map Char.toNat ++
            (encodeBody d ++ (encodeList ds' ++ Z)))).take k) =
            some (d.name.length, ((d.name.data.map Char.toNat ++
              (encodeBody d ++ (encodeList ds' ++ Z))).take (k - 4))) := by
          rw [readU32_trunc _ k (encodeU32_length _), if_pos hk1, leNum_encodeU32 hgd.1]
        by_cases hk2 : 4 + d.name.length ≤ k
        case neg =>
          have hr2 : readString d.name.length ((d.name.data.map Char.toNat ++
              (encodeBody d ++ (encodeList ds' ++ Z))).take (k - 4)) = none := by
            rw [readString_name_trunc _ _ hgd, if_neg (by omega)]
          have hval : parseFoldersF (fu'' + 1) (ds'.length + 1)
              ((encodeU32 d.name.length ++ (d.name.data.map Char.toNat ++
                (encodeBody d ++ (encodeList ds' ++ Z)))).take k) =
              some (false, [], ((d.name.data.map Char.toNat ++
                (encodeBody d ++ (encodeList ds' ++ Z))).take (k - 4))) := by
            simp only [parseFoldersF, hr1, hr2]
          exact ⟨fun hc => absurd hc (by rw [hELc]; omega),
            fun _ g hg => g1_of_some3 hval hg⟩
        have hr2 : readString d.name.length ((d.name.data.map Char.toNat ++
            (encodeBody d ++ (encodeList ds' ++ Z))).take (k - 4)) =
            some (d.name, ((encodeBody d ++ (encodeList ds' ++ Z)).take
              (k - 4 - d.name.length))) := by
          rw [readString_name_trunc _ _ hgd, if_pos (by omega)]
        have hbfu : ((encodeBody d ++ (encodeList ds' ++ Z)).take
            (k - 4 - d.name.length)).length < fu'' := by
          rw [htklen] at hfu ⊢
          simp only [List.length_append] at *
          omega
        have IHd := IH d hszd hwfd (encodeList ds' ++ Z) (k - 4 - d.name.length) fu'' hbfu
        by_cases hk3 : 4 + d.name.length + (encodeBody d).length ≤ k
        · have hbody := IHd.1 (by omega)
          have hlfu : ((encodeList ds' ++ Z).take
              (k - 4 - d.name.length - (encodeBody d).length)).length < fu'' := by
            rw [htklen] at hfu ⊢
            simp only [List.length_append] at *
            omega
          have IHl := ihds hrest Z (k - 4 - d.name.length - (encodeBody d).length) fu'' hlfu
          rw [show k - 4 - d.name.length - (encodeBody d).length =
            k - (4 + d.name.length + (encodeBody d).length) from by omega] at hbody
          by_cases hk4 : 4 + d.name.length + (encodeBody d).length +
              (encodeList ds').length ≤ k
          · have hlist := IHl.1 (by omega)
            rw [show k - 4 - d.name.length - (encodeBody d).length =
              k - (4 + d.name.length + (encodeBody d).length) from by omega] at hlist
            have hval : parseFoldersF (fu'' + 1) (ds'.length + 1)
                ((encodeU32 d.name.length ++ (d.name.data.map Char.toNat ++
                  (encodeBody d ++ (encodeList ds' ++ Z)))).take k) =
                some (true, SFolder.mk d.name d.files d.folders :: ds',
                  Z.take (k - (4 + d.name.length + (encodeBody d).length) -
                    (encodeList ds').length)) := by
              simp only [parseFoldersF, hr1, hr2, hbody, hlist]
            rw [sfolder_eta] at hval
            refine ⟨fun _ => ?_, fun hk => absurd hk (by rw [hELc]; omega)⟩
            rw [hval, hELc,
              show k - (4 + d.name.length + (encodeBody d).length) -
                  (encodeList ds').length =
                k - (4 + d.name.length + (encodeBody d).length +
                  (encodeList ds').length) from by omega]
          · rcases hq : parseFoldersF fu'' ds'.length ((encodeList ds' ++ Z).take
                (k - (4 + d.name.length + (encodeBody d).length))) with _ | ⟨ok, ds'', r⟩
            · have hval : parseFoldersF (fu'' + 1) (ds'.length + 1)
                  ((encodeU32 d.name.length ++ (d.name.data.map Char.toNat ++
                    (encodeBody d ++ (encodeList ds' ++ Z)))).take k) = none := by
                simp only [parseFoldersF, hr1, hr2, hbody, hq]
              exact ⟨fun hc => absurd hc (by rw [hELc]; omega),
                fun _ g hg => (false_of_none hval hg).elim⟩
            · have hok : ok = false := by
                have := IHl.2 (by omega) (ok, ds'', r)
                rw [show k - 4 - d.name.length - (encodeBody d).length =
                  k - (4 + d.name.length + (encodeBody d).length) from by omega] at this
                exact this hq
              subst hok
              have hval : parseFoldersF (fu'' + 1) (ds'.length + 1)
                  ((encodeU32 d.name.length ++ (d.name.data.map Char.toNat ++
                    (encodeBody d ++ (encodeList ds' ++ Z)))).take k) =
                  some (false, SFolder.mk d.name d.files d.folders :: ds'', r) := by
                simp only [parseFoldersF, hr1, hr2, hbody, hq]
              exact ⟨fun hc => absurd hc (by rw [hELc]; omega),
                fun _ g hg => g1_of_some3 hval hg⟩
        · rcases hp : parseBodyF fu'' ((encodeBody d ++ (encodeList ds' ++ Z)).take
              (k - 4 - d.name.length)) with _ | ⟨ok, fs', ds'', r⟩
          · have hval : parseFoldersF (fu'' + 1) (ds'.length + 1)
                ((encodeU32 d.name.length ++ (d.name.data.map Char.toNat ++
                  (encodeBody d ++ (encodeList ds' ++ Z)))).take k) = none := by
              simp only [parseFoldersF, hr1, hr2, hp]
            exact ⟨fun hc => absurd hc (by rw [hELc]; omega),
              fun _ g hg => (false_of_none hval hg).elim⟩
          · have hok : ok = false := IHd.2 (by omega) (ok, fs', ds'', r) hp
            subst hok
            have hval : parseFoldersF (fu'' + 1) (ds'.length + 1)
                ((encodeU32 d.name.length ++ (d.name.data.map Char.toNat ++
                  (encodeBody d ++ (encodeList ds' ++ Z)))).take k) =
                some (false, [], r) := by
              simp only [parseFoldersF, hr1, hr2, hp]
            exact ⟨fun hc => absurd hc (by rw [hELc]; omega),
              fun _ g hg => g1_of_some3 hval hg⟩
    -- main body
    have hszds : ∀ d ∈ ds, sizeOf d ≤ N ∧ WFolder d := by
      intro d hd
      have h1 : sizeOf d < sizeOf ds := List.sizeOf_lt_of_mem hd
      have h2 : sizeOf (SFolder.mk n fs ds) = 1 + sizeOf n + sizeOf fs + sizeOf ds := by
        simp [SFolder.mk.sizeOf_spec]
      exact ⟨by omega, hwds d hd⟩
    obtain ⟨fu', rfl⟩ : ∃ m, fu = m + 1 := ⟨fu - 1, by omega⟩
    have hshape : encodeBody (.mk n fs ds) ++ Z =
        encodeU32 fs.length ++ ((fs.map encodeFile).flatten ++
          (encodeU32 ds.length ++ (encodeList ds ++ Z))) := by
      rw [encodeBody_mk]
      simp [List.append_assoc]
    have hBL : (encodeBody (SFolder.mk n fs ds)).length =
        8 + (fs.map encodeFile).flatten.length + (encodeList ds).length :=
      encodeBody_length n fs ds
    have htklen : ∀ (m : Nat) (L M : Bytes), ((L ++ M).take m).length =
        min m (L.length + M.length) := by
      intro m L M
      simp [List.length_take, List.length_append]
    rw [hshape]
    by_cases hk1 : 4 ≤ k
    case neg =>
      have hr1 : readU32 ((encodeU32 fs.length ++ ((fs.map encodeFile).flatten ++
          (encodeU32 ds.length ++ (encodeList ds ++ Z)))).take k) = none := by
        rw [readU32_trunc _ k (encodeU32_length _), if_neg hk1]
      have hval : parseBodyF (fu' + 1) ((encodeU32 fs.length ++
          ((fs.map encodeFile).flatten ++ (encodeU32 ds.length ++
            (encodeList ds ++ Z)))).take k) =
          some (false, [], [], ((encodeU32 fs.length ++ ((fs.map encodeFile).flatten ++
            (encodeU32 ds.length ++ (encodeList ds ++ Z)))).take k)) := by
        simp only [parseBodyF, hr1]
      exact ⟨fun hc => absurd hc (by rw [hBL]; omega),
        fun _ g hg => g1_of_some4 hval hg⟩
    have hr1 : readU32 ((encodeU32 fs.length ++ ((fs.map encodeFile).flatten ++
        (encodeU32 ds.length ++ (encodeList ds ++ Z)))).take k) =
        some (fs.length, (((fs.map encodeFile).flatten ++ (encodeU32 ds.length ++
          (encodeList ds ++ Z))).take (k - 4))) := by
      rw [readU32_trunc _ k (encodeU32_length _), if_pos hk1, leNum_encodeU32 hfsl]
    have hfiles := parseFilesP_encode fs hwfs (encodeU32 ds.length ++ (encodeList ds ++ Z))
      (k - 4)
    by_cases hk2 : 4 + (fs.map encodeFile).flatten.length ≤ k
    · have hf1 := hfiles.1 (by omega)
      by_cases hk3 : 8 + (fs.map encodeFile).flatten.length ≤ k
      case neg =>
        have hr3 : readU32 ((encodeU32 ds.length ++ (encodeList ds ++ Z)).take
            (k - 4 - (fs.map encodeFile).flatten.length)) = none := by
          rw [readU32_trunc _ _ (encodeU32_length _), if_neg (by omega)]
        have hval : parseBodyF (fu' + 1) ((encodeU32 fs.length ++
            ((fs.map encodeFile).flatten ++ (encodeU32 ds.length ++
              (encodeList ds ++ Z)))).take k) =
            some (false, fs, [], ((encodeU32 ds.length ++ (encodeList ds ++ Z)).take
              (k - 4 - (fs.map encodeFile).flatten.length))) := by
          simp only [parseBodyF, hr1, hf1, hr3]
        exact ⟨fun hc => absurd hc (by rw [hBL]; omega),
          fun _ g hg => g1_of_some4 hval hg⟩
      have hr3 : readU32 ((encodeU32 ds.length ++ (encodeList ds ++ Z)).take
          (k - 4 - (fs.map encodeFile).flatten.length)) =
          some (ds.length, ((encodeList ds ++ Z).take
            (k - 8 - (fs.map encodeFile).flatten.length))) := by
        rw [readU32_trunc _ _ (encodeU32_length _), if_pos (by omega), leNum_encodeU32 hdsl,
          show k - 4 - (fs.map encodeFile).flatten.length - 4 =
            k - 8 - (fs.map encodeFile).flatten.length from by omega]
      have hlfu : ((encodeList ds ++ Z).take
          (k - 8 - (fs.map encodeFile).flatten.length)).length < fu' := by
        rw [htklen] at hfu ⊢
        rw [hBL] at hfu
        omega
      have AUXds := AUX ds hszds Z (k - 8 - (fs.map encodeFile).flatten.length) fu' hlfu
      by_cases hk4 : 8 + (fs.map encodeFile).flatten.length + (encodeList ds).length ≤ k
      · have hl1 := AUXds.1 (by omega)
        have hval : parseBodyF (fu' + 1) ((encodeU32 fs.length ++
            ((fs.map encodeFile).flatten ++ (encodeU32 ds.length ++
              (encodeList ds ++ Z)))).take k) =
            some (true, fs, ds, Z.take (k - 8 - (fs.map encodeFile).flatten.length -
              (encodeList ds).length)) := by
          simp only [parseBodyF, hr1, hf1, hr3, hl1]
        refine ⟨fun _ => ?_, fun hk => absurd hk (by rw [hBL]; omega)⟩
        rw [hval, hBL]
        rw [show k - 8 - (fs.map encodeFile).flatten.length - (encodeList ds).length =
          k - (8 + (fs.map encodeFile).flatten.length + (encodeList ds).length)
          from by omega]
        rfl
      · rcases hq : parseFoldersF fu' ds.length ((encodeList ds ++ Z).take
            (k - 8 - (fs.map encodeFile).flatten.length)) with _ | ⟨ok, ds'', r⟩
        · have hval : parseBodyF (fu' + 1) ((encodeU32 fs.length ++
              ((fs.map encodeFile).flatten ++ (encodeU32 ds.length ++
                (encodeList ds ++ Z)))).take k) = none := by
            simp only [parseBodyF, hr1, hf1, hr3, hq]
          exact ⟨fun hc => absurd hc (by rw [hBL]; omega),
            fun _ g hg => (false_of_none hval hg).elim⟩
        · have hok : ok = false := AUXds.2 (by omega) (ok, ds'', r) hq
          subst hok
          have hval : parseBodyF (fu' + 1) ((encodeU32 fs.length ++
              ((fs.map encodeFile).flatten ++ (encodeU32 ds.length ++
                (encodeList ds ++ Z)))).take k) =
              some (false, fs, ds'', r) := by
            simp only [parseBodyF, hr1, hf1, hr3, hq]
          exact ⟨fun hc => absurd hc (by rw [hBL]; omega),
            fun _ g hg => g1_of_some4 hval hg⟩
    · rcases hp : parseFilesP fs.length (((fs.map encodeFile).flatten ++
          (encodeU32 ds.length ++ (encodeList ds ++ Z))).take (k - 4)) with ⟨ok, gs, r⟩
      have hok : ok = false := by
        have := hfiles.2 (by omega)
        rw [hp] at this
        exact this
      subst hok
      have hval : parseBodyF (fu' + 1) ((encodeU32 fs.length ++
          ((fs.map encodeFile).flatten ++ (encodeU32 ds.length ++
            (encodeList ds ++ Z)))).take k) =
          some (false, gs, [], r) := by
        simp only [parseBodyF, hr1, hp]
      exact ⟨fun hc => absurd hc (by rw [hBL]; omega),
        fun _ g hg => g1_of_some4 hval hg⟩

/-- Round trip at the wrapper level: parsing an encoded body into a fresh
folder with the same name reproduces the folder exactly and leaves the
trailing bytes untouched. -/
theorem parseP_encode (f : SFolder) (hwf : WFolder f) (rest : Bytes) :
    (SFolder.new f.name).parseP (encodeBody f ++ rest) = (true, f, rest) := by
  have h := (parseBodyF_encode (sizeOf f) f le_rfl hwf rest
    ((encodeBody f ++ rest).length) ((encodeBody f ++ rest).length + 1)
    (by rw [List.take_length]; omega)).1 (by simp [List.length_append])
  rw [List.take_length] at h
  rw [show (encodeBody f ++ rest).length - (encodeBody f).length = rest.length from by
    simp [List.length_append], List.take_length] at h
  rw [SFolder.parseP.eq_def, h]
  cases f
  simp [SFolder.new, SFolder.name, SFolder.files, SFolder.folders]

theorem mkHeader_length (f : SFolder) :
    (mkHeader f).length = 55 + f.name.length + (encodeBody f).length := by
  simp [mkHeader, encodeName_length, List.length_append]
  omega

theorem readString_magic_trunc (Y : Bytes) (k : Nat) :
    readString 3 (([83, 65, 72] ++ Y).take k) =
      if 3 ≤ k then some ("SAH", Y.take (k - 3)) else none :=
  @readString_name_trunc "SAH" Y k (by decide)

/-- Truncation of a body fails the wrapper too. -/
theorem parseP_trunc_fail (self f : SFolder) (hwf : WFolder f) (k : Nat)
    (hk : k < (encodeBody f).length) :
    (self.parseP ((encodeBody f).take k)).1 = false := by
  have hchar := (parseBodyF_encode (sizeOf f) f le_rfl hwf [] k
    (((encodeBody f ++ []).take k).length + 1) (by omega)).2 (by simpa using hk)
  rw [List.append_nil] at hchar
  rw [SFolder.parseP.eq_def]
  rcases hp : parseBodyF (((encodeBody f).take k).length + 1) ((encodeBody f).take k)
    with _ | ⟨ok, fs', ds', r⟩
  · rfl
  · have hok : ok = false := hchar (ok, fs', ds', r) hp
    subst hok
    rfl

theorem if_sah {α : Sort u_1} (t e : α) :
    (if ("SAH" : String) = "SAH" then t else e) = t := if_pos rfl

theorem if_not_sah {α : Sort u_1} {m : String} (hm : m ≠ "SAH") (t e : α) :
    (if m = "SAH" then t else e) = e := if_neg hm

/-- Opening any strict truncation of a well-formed header fails: every cut
lands inside some declared field or count, the read of that field fails,
and the whole load is rejected with no archive value. -/
theorem open_trunc_none (f : SFolder) (hwf : WFolder f) (d : Bytes) (k : Nat)
    (hk : k < (mkHeader f).length) :
    Archive.openM ((mkHeader f).take k) d = none := by
  have hgn : goodName f.name := wfolder_goodName hwf
  have hH : mkHeader f = [83, 65, 72] ++ (List.replicate 48 0 ++
      (encodeU32 f.name.length ++ (f.name.data.map Char.toNat ++ encodeBody f))) := by
    simp [mkHeader, encodeName, List.append_assoc]
  have hHlen := mkHeader_length f
  suffices hparse :
      (Archive.mk ⟨(mkHeader f).take k, 0⟩ ⟨d, 0⟩ (SFolder.new "data")).parse.1 = false by
    rw [Archive.openM.eq_def]
    rcases hp : (Archive.mk ⟨(mkHeader f).take k, 0⟩ ⟨d, 0⟩ (SFolder.new "data")).parse
      with ⟨ok, a⟩
    rw [hp] at hparse
    simp only at hparse
    subst hparse
    simp only [hp]
  by_cases hk1 : 3 ≤ k
  case neg =>
    have hm : readString 3 ((mkHeader f).take k) = none := by
      rw [hH, readString_magic_trunc, if_neg hk1]
    rw [Archive.parse.eq_def]
    simp [hm]
  have hm : readString 3 ((mkHeader f).take k) =
      some ("SAH", ((List.replicate 48 0 ++ (encodeU32 f.name.length ++
        (f.name.data.map Char.toNat ++ encodeBody f))).take (k - 3))) := by
    rw [hH, readString_magic_trunc, if_pos hk1]
  have hdrop : ((List.replicate 48 0 ++ (encodeU32 f.name.length ++
      (f.name.data.map Char.toNat ++ encodeBody f))).take (k - 3)).drop 48 =
      (encodeU32 f.name.length ++
        (f.name.data.map Char.toNat ++ encodeBody f)).take (k - 51) := by
    rw [List.drop_take,
      List.drop_left' (show (List.replicate 48 (0 : Nat)).length = 48 from by simp),
      show k - 3 - 48 = k - 51 from by omega]
  by_cases hk2 : 55 ≤ k
  case neg =>
    have hu : readU32 ((encodeU32 f.name.length ++
        (f.name.data.map Char.toNat ++ encodeBody f)).take (k - 51)) = none := by
      rw [readU32_trunc _ _ (encodeU32_length _), if_neg (by omega)]
    rw [Archive.parse.eq_def]
    simp only [List.drop_zero, hm, if_sah, hdrop, hu]
    simp
  have hu : readU32 ((encodeU32 f.name.length ++
      (f.name.data.map Char.toNat ++ encodeBody f)).take (k - 51)) =
      some (f.name.length,
        ((f.name.data.map Char.toNat ++ encodeBody f).take (k - 51 - 4))) := by
    rw [readU32_trunc _ _ (encodeU32_length _), if_pos (by omega), leNum_encodeU32 hgn.1]
  by_cases hk3 : 55 + f.name.length ≤ k
  case neg =>
    have hs : readString f.name.length
        ((f.name.data.map Char.toNat ++ encodeBody f).take (k - 51 - 4)) = none := by
      rw [readString_name_trunc _ _ hgn, if_neg (by omega)]
    rw [Archive.parse.eq_def]
    simp only [List.drop_zero, hm, if_sah, hdrop, hu, hs]
    simp
  have hs : readString f.name.length
      ((f.name.data.map Char.toNat ++ encodeBody f).take (k - 51 - 4)) =
      some (f.name, ((encodeBody f).take (k - 51 - 4 - f.name.length))) := by
    rw [show f.name.data.map Char.toNat ++ encodeBody f =
      f.name.data.map Char.toNat ++ (encodeBody f ++ []) from by simp,
      readString_name_trunc _ _ hgn, if_pos (by omega)]
    simp
  have hfail := parseP_trunc_fail (SFolder.new f.name) f hwf (k - 51 - 4 - f.name.length)
    (by omega)
  rw [Archive.parse.eq_def]
  rcases hp : (SFolder.new f.name).parseP ((encodeBody f).take (k - 51 - 4 - f.name.length))
    with ⟨ok, fo, r⟩
  rw [hp] at hfail
  simp only at hfail
  subst hfail
  simp only [List.drop_zero, hm, if_sah, hdrop, hu, hs, hp]
  simp

/-! ## The 32-bit bound on decoded file lengths -/

theorem leNum_lt : ∀ (bs : Bytes), (∀ b ∈ bs, b < 256) → leNum bs < 256 ^ bs.length := by
  intro bs h
  induction bs with
  | nil => simp [leNum]
  | cons b bs ih =>
    have hb : b < 256 := h b (List.mem_cons_self b bs)
    have := ih fun x hx => h x (List.mem_cons_of_mem b hx)
    simp only [leNum, List.length_cons, pow_succ]
    calc b + 256 * leNum bs < 256 + 256 * leNum bs := by omega
    _ ≤ 256 * (leNum bs + 1) := by ring_nf; omega
    _ ≤ 256 * 256 ^ bs.length := by
        have : leNum bs + 1 ≤ 256 ^ bs.length := this
        exact Nat.mul_le_mul_left 256 this
    _ = 256 ^ bs.length * 256 := by ring

theorem readU32_val_lt {l : Bytes} {v : Nat} {r : Bytes} (hb : ∀ b ∈ l, b < 256)
    (h : readU32 l = some (v, r)) : v < 4294967296 := by
  obtain ⟨hv, _, hlen⟩ := readU32_some h
  have hsub : ∀ b ∈ l.take 4, b < 256 := fun b hbm => hb b (List.take_subset 4 l hbm)
  have := leNum_lt (l.take 4) hsub
  have hl4 : (l.take 4).length = 4 := by simp [List.length_take]; omega
  rw [hl4] at this
  subst hv
  exact lt_of_lt_of_le this (by norm_num)

theorem bytes_drop {l : Bytes} (n : Nat) (hb : ∀ b ∈ l, b < 256) :
    ∀ b ∈ l.drop n, b < 256 := fun b hbm => hb b (List.drop_subset n l hbm)

/-- Every file produced by the file-entry loop has a length below `2^32`,
and the remaining bytes are still bytes. -/
theorem parseFilesP_bound : ∀ (c : Nat) (l : Bytes), (∀ b ∈ l, b < 256) →
    ∀ {ok : Bool} {fs : List SFile} {r : Bytes}, parseFilesP c l = (ok, fs, r) →
      (∀ f ∈ fs, f.length < 4294967296) ∧ (∀ b ∈ r, b < 256) := by
  intro c
  induction c with
  | zero =>
    intro l hb ok fs r hp
    simp only [parseFilesP] at hp
    cases hp
    exact ⟨by simp, hb⟩
  | succ c ih =>
    intro l hb ok fs r hp
    rcases h1 : readU32 l with _ | ⟨nlen, l1⟩
    · simp only [parseFilesP, h1] at hp
      cases hp
      exact ⟨by simp, hb⟩
    have hb1 : ∀ b ∈ l1, b < 256 := (readU32_some h1).2.1 ▸ bytes_drop 4 hb
    rcases h2 : readString nlen l1 with _ | ⟨fname, l2⟩
    · simp only [parseFilesP, h1, h2] at hp
      cases hp
      exact ⟨by simp, hb1⟩
    have hb2 : ∀ b ∈ l2, b < 256 := (readString_some h2).1 ▸ bytes_drop nlen hb1
    rcases h3 : readU64 l2 with _ | ⟨off, l3⟩
    · simp only [parseFilesP, h1, h2, h3] at hp
      cases hp
      exact ⟨by simp, hb2⟩
    have hb3 : ∀ b ∈ l3, b < 256 := (readU64_some h3).2.1 ▸ bytes_drop 8 hb2
    rcases h4 : readU32 l3 with _ | ⟨len, l4⟩
    · simp only [parseFilesP, h1, h2, h3, h4] at hp
      cases hp
      exact ⟨by simp, hb3⟩
    have hb4 : ∀ b ∈ l4, b < 256 := (readU32_some h4).2.1 ▸ bytes_drop 4 hb3
    have hlen : len < 4294967296 := readU32_val_lt hb3 h4
    rcases h5 : readI32 l4 with _ | ⟨ck, l5⟩
    · simp only [parseFilesP, h1, h2, h3, h4, h5] at hp
      cases hp
      exact ⟨by simp, hb4⟩
    have hb5 : ∀ b ∈ l5, b < 256 := (readI32_some h5).1 ▸ bytes_drop 4 hb4
    rcases h6 : parseFilesP c l5 with ⟨ok', fs', r'⟩
    simp only [parseFilesP, h1, h2, h3, h4, h5, h6] at hp
    cases hp
    obtain ⟨hfs', hr'⟩ := ih l5 hb5 h6
    refine ⟨?_, hr'⟩
    intro f hf
    rcases List.mem_cons.mp hf with rfl | hf'
    · exact hlen
    · exact hfs' f hf'

theorem fileInTree_inv {g : SFile} {n : String} {fs : List SFile} {ds : List SFolder}
    (h : FileInTree g (.mk n fs ds)) : g ∈ fs ∨ ∃ d ∈ ds, FileInTree g d := by
  cases h with
  | here hmem => exact Or.inl hmem
  | there hmem hsub => exact Or.inr ⟨_, hmem, hsub⟩

/-- Every file anywhere in a tree produced by the folder-block decoder has
a length below `2^32`: the on-disk field is a `u32`. -/
theorem parseBodyF_bound : ∀ (fu : Nat),
    (∀ (l : Bytes), (∀ b ∈ l, b < 256) →
      ∀ {ok : Bool} {fs : List SFile} {ds : List SFolder} {r : Bytes},
        parseBodyF fu l = some (ok, fs, ds, r) →
          (∀ f ∈ fs, f.length < 4294967296) ∧
          (∀ d ∈ ds, ∀ g, FileInTree g d → g.length < 4294967296) ∧
          (∀ b ∈ r, b < 256)) ∧
    (∀ (c : Nat) (l : Bytes), (∀ b ∈ l, b < 256) →
      ∀ {ok : Bool} {ds : List SFolder} {r : Bytes},
        parseFoldersF fu c l = some (ok, ds, r) →
          (∀ d ∈ ds, ∀ g, FileInTree g d → g.length < 4294967296) ∧
          (∀ b ∈ r, b < 256)) := by
  intro fu
  induction fu with
  | zero =>
    constructor
    · intro l _ ok fs ds r hp
      simp [parseBodyF] at hp
    · intro c l _ ok ds r hp
      simp [parseFoldersF] at hp
  | succ fu ih =>
    obtain ⟨ihB, ihF⟩ := ih
    constructor
    · intro l hb ok fs ds r hp
      rcases h1 : readU32 l with _ | ⟨fq, l1⟩
      · simp only [parseBodyF, h1] at hp
        cases hp
        exact ⟨by simp, by simp, hb⟩
      have hb1 : ∀ b ∈ l1, b < 256 := (readU32_some h1).2.1 ▸ bytes_drop 4 hb
      rcases h2 : parseFilesP fq l1 with ⟨okf, fs', l2⟩
      obtain ⟨hfs', hb2⟩ := parseFilesP_bound fq l1 hb1 h2
      rcases okf with _ | _
      · simp only [parseBodyF, h1, h2] at hp
        cases hp
        exact ⟨hfs', by simp, hb2⟩
      rcases h3 : readU32 l2 with _ | ⟨dq, l3⟩
      · simp only [parseBodyF, h1, h2, h3] at hp
        cases hp
        exact ⟨hfs', by simp, hb2⟩
      have hb3 : ∀ b ∈ l3, b < 256 := (readU32_some h3).2.1 ▸ bytes_drop 4 hb2
      rcases h4 : parseFoldersF fu dq l3 with _ | ⟨okd, ds', r'⟩
      · simp only [parseBodyF, h1, h2, h3, h4] at hp
        cases hp
      obtain ⟨hds', hbr⟩ := ihF dq l3 hb3 h4
      simp only [parseBodyF, h1, h2, h3, h4] at hp
      cases hp
      exact ⟨hfs', hds', hbr⟩
    · intro c l hb ok ds r hp
      rcases c with _ | c
      · simp only [parseFoldersF] at hp
        cases hp
        exact ⟨by simp, hb⟩
      rcases h1 : readU32 l with _ | ⟨nlen, l1⟩
      · simp only [parseFoldersF, h1] at hp
        cases hp
        exact ⟨by simp, hb⟩
      have hb1 : ∀ b ∈ l1, b < 256 := (readU32_some h1).2.1 ▸ bytes_drop 4 hb
      rcases h2 : readString nlen l1 with _ | ⟨dname, l2⟩
      · simp only [parseFoldersF, h1, h2] at hp
        cases hp
        exact ⟨by simp, hb1⟩
      have hb2 : ∀ b ∈ l2, b < 256 := (readString_some h2).1 ▸ bytes_drop nlen hb1
      rcases h3 : parseBodyF fu l2 with _ | ⟨okb, fs', ds', r'⟩
      · simp only [parseFoldersF, h1, h2, h3] at hp
        cases hp
      obtain ⟨hfs', hds', hbr⟩ := ihB l2 hb2 h3
      rcases okb with _ | _
      · simp only [parseFoldersF, h1, h2, h3] at hp
        cases hp
        exact ⟨by simp, hbr⟩
      rcases h4 : parseFoldersF fu c r' with _ | ⟨okl, ds'', r''⟩
      · simp only [parseFoldersF, h1, h2, h3, h4] at hp
        cases hp
      obtain ⟨hds'', hbr'⟩ := ihF c r' hbr h4
      simp only [parseFoldersF, h1, h2, h3, h4] at hp
      cases hp
      refine ⟨?_, hbr'⟩
      intro d hd g hg
      rcases List.mem_cons.mp hd with rfl | hd'
      · rcases fileInTree_inv hg with hin | ⟨d', hd', hsub⟩
        · exact hfs' g hin
        · exact hds' d' hd' g hsub
      · exact hds'' d hd' g hg

/-! ## Inverting a successful archive parse -/

theorem parse_success_inv {a a1 : Archive} (hp : a.parse = (true, a1)) :
    ∃ r1 rootLen r3 rootName r4 fs ds rr,
      readString 3 (a.header_file.contents.drop a.header_file.pos) = some ("SAH", r1) ∧
      readU32 (r1.drop 48) = some (rootLen, r3) ∧
      readString rootLen r3 = some (rootName, r4) ∧
      parseBodyF (r4.length + 1) r4 = some (true, fs, ds, rr) ∧
      a1.root = SFolder.mk rootName fs ds ∧
      a1.header_file = ⟨a.header_file.contents, a.header_file.contents.length⟩ ∧
      a1.data_file = a.data_file := by
  rw [Archive.parse.eq_def] at hp
  simp only at hp
  rcases h1 : readString 3 (a.header_file.contents.drop a.header_file.pos)
    with _ | ⟨magic, r1⟩
  · rw [h1] at hp
    simp at hp
  rw [h1] at hp
  simp only at hp
  by_cases hmagic : magic = "SAH"
  case neg =>
    rw [if_not_sah hmagic] at hp
    simp at hp
  subst hmagic
  rw [if_sah] at hp
  rcases h2 : readU32 (r1.drop 48) with _ | ⟨rootLen, r3⟩
  · rw [h2] at hp
    simp at hp
  rw [h2] at hp
  simp only at hp
  rcases h3 : readString rootLen r3 with _ | ⟨rootName, r4⟩
  · rw [h3] at hp
    simp at hp
  rw [h3] at hp
  simp only at hp
  rw [SFolder.parseP.eq_def] at hp
  rcases h4 : parseBodyF (r4.length + 1) r4 with _ | ⟨ok, fs, ds, rr⟩
  · rw [h4] at hp
    simp at hp
  rw [h4] at hp
  simp only at hp
  rcases ok with _ | _
  · simp at hp
  cases hp
  exact ⟨r1, rootLen, r3, rootName, r4, fs, ds, rr, by simp [h1], by simp [h2],
    by simp [h3], by simp [h4], rfl, rfl, rfl⟩

theorem openM_some_inv {h d : Bytes} {a : Archive} (ho : Archive.openM h d = some a) :
    (Archive.mk ⟨h, 0⟩ ⟨d, 0⟩ (SFolder.new "data")).parse = (true, a) := by
  rw [Archive.openM.eq_def] at ho
  simp only at ho
  rcases hp : (Archive.mk ⟨h, 0⟩ ⟨d, 0⟩ (SFolder.new "data")).parse with ⟨ok, a1⟩
  rw [hp] at ho
  rcases ok with _ | _
  · simp at ho
  · simp only [Option.some.injEq] at ho
    rw [ho]

/-- A parse issued when the header handle already sits at end of file reads
nothing, fails the magic check, and leaves the archive unchanged. -/
theorem parse_at_end {a : Archive} (hpos : a.header_file.pos = a.header_file.contents.length) :
    a.parse = (false, a) := by
  obtain ⟨⟨c, p⟩, df, rt⟩ := a
  simp only at hpos
  subst hpos
  rw [Archive.parse.eq_def]
  simp only [List.drop_length]
  rw [readString_short (by simp)]

/-- Every file reachable in the tree of a successfully opened archive has
`length < 2^32`. -/
theorem openM_length_bound {h d : Bytes} {a : Archive} (ho : Archive.openM h d = some a)
    (hb : ∀ b ∈ h, b < 256) : ∀ g, FileInTree g a.root → g.length < 4294967296 := by
  have hp := openM_some_inv ho
  obtain ⟨r1, rootLen, r3, rootName, r4, fs, ds, rr, h1, h2, h3, h4, hroot, -, -⟩ :=
    parse_success_inv hp
  simp only [List.drop_zero] at h1
  have hb1 : ∀ b ∈ r1, b < 256 := (readString_some h1).1 ▸ bytes_drop 3 hb
  have hb2 : ∀ b ∈ r1.drop 48, b < 256 := bytes_drop 48 hb1
  have hb3 : ∀ b ∈ r3, b < 256 := (readU32_some h2).2.1 ▸ bytes_drop 4 hb2
  have hb4 : ∀ b ∈ r4, b < 256 := (readString_some h3).1 ▸ bytes_drop rootLen hb3
  obtain ⟨hfs, hds, -⟩ := (parseBodyF_bound (r4.length + 1)).1 r4 hb4 h4
  intro g hg
  rw [hroot] at hg
  rcases fileInTree_inv hg with hin | ⟨d', hd', hsub⟩
  · exact hfs g hin
  · exact hds d' hd' g hsub

/-! ## The path resolver: fuel adequacy and the scan/hit views -/

theorem getMeasure_descent (part : String) (rest parts : List String) :
    getMeasure parts.tail parts.tail < getMeasure (part :: rest) parts := by
  unfold getMeasure
  cases parts with
  | nil => simp
  | cons q qs =>
    simp only [List.tail_cons, List.length_cons]
    nlinarith [qs.length.zero_le]

theorem getScanF_irrel : ∀ (m : Nat) (folder : SFolder) (scan parts : List String)
    (fu fu' : Nat), getMeasure scan parts ≤ m → getMeasure scan parts < fu →
    getMeasure scan parts < fu' →
    getScanF fu folder scan parts = getScanF fu' folder scan parts := by
  intro m
  induction m with
  | zero =>
    intro folder scan parts fu fu' hm hfu hfu'
    obtain ⟨a, rfl⟩ : ∃ a, fu = a + 1 := ⟨fu - 1, by omega⟩
    obtain ⟨b, rfl⟩ : ∃ b, fu' = b + 1 := ⟨fu' - 1, by omega⟩
    have hscan : scan = [] := by
      cases scan with
      | nil => rfl
      | cons p r => unfold getMeasure at hm; simp at hm
    subst hscan
    rfl
  | succ m ih =>
    intro folder scan parts fu fu' hm hfu hfu'
    obtain ⟨a, rfl⟩ : ∃ a, fu = a + 1 := ⟨fu - 1, by omega⟩
    obtain ⟨b, rfl⟩ : ∃ b, fu' = b + 1 := ⟨fu' - 1, by omega⟩
    cases scan with
    | nil => rfl
    | cons part rest =>
      simp only [getScanF]
      rcases findFile folder.files part with _ | f
      · rcases findFolder folder.folders part with _ | sub
        · have hd := getMeasure_descent part rest parts
          have hr : getMeasure rest parts < getMeasure (part :: rest) parts := by
            unfold getMeasure
            simp only [List.length_cons]
            omega
          exact ih folder rest parts a b (by omega) (by omega) (by omega)
        · have hd := getMeasure_descent part rest parts
          exact ih sub parts.tail parts.tail a b (by omega) (by omega) (by omega)
      · rfl

theorem getScanF_eq_hit : ∀ (scan : List String) (folder : SFolder) (parts : List String)
    (fu : Nat), getMeasure scan parts < fu →
    getScanF fu folder scan parts =
      match scanHit folder scan with
      | none => some none
      | some (Sum.inl f) => some (some f)
      | some (Sum.inr sub) =>
        getScanF (getMeasure parts.tail parts.tail + 1) sub parts.tail parts.tail := by
  intro scan
  induction scan with
  | nil =>
    intro folder parts fu hfu
    obtain ⟨a, rfl⟩ : ∃ a, fu = a + 1 := ⟨fu - 1, by omega⟩
    rfl
  | cons part rest ih =>
    intro folder parts fu hfu
    obtain ⟨a, rfl⟩ : ∃ a, fu = a + 1 := ⟨fu - 1, by omega⟩
    simp only [getScanF, scanHit]
    rcases findFile folder.files part with _ | f
    · rcases findFolder folder.folders part with _ | sub
      · have hr : getMeasure rest parts < getMeasure (part :: rest) parts := by
          unfold getMeasure
          simp only [List.length_cons]
          omega
        exact ih folder parts a (by omega)
      · have hd := getMeasure_descent part rest parts
        exact getScanF_irrel (getMeasure parts.tail parts.tail) sub parts.tail parts.tail
          a _ le_rfl (by omega) (by omega)
    · rfl

theorem scanHit_nil (folder : SFolder) : scanHit folder [] = none := rfl

/-- The source resolver coincides with the spec's wording of it. -/
theorem get_eq_specGet : ∀ (parts : List String) (folder : SFolder),
    SFolder.get folder parts = specGet folder parts := by
  intro parts
  generalize hN : parts.length = N
  induction N using Nat.strong_induction_on generalizing parts with
  | _ N ih =>
    intro folder
    unfold SFolder.get specGet getFuel
    rw [getScanF_eq_hit parts folder parts _ (by omega)]
    rcases hhit : scanHit folder parts with _ | ⟨f | sub⟩
    · simp [specGetF, hhit]
    · simp [specGetF, hhit]
    · have hne : parts ≠ [] := by
        intro he
        rw [he, scanHit_nil] at hhit
        cases hhit
      obtain ⟨q, qs, rfl⟩ : ∃ q qs, parts = q :: qs := by
        cases parts with
        | nil => exact absurd rfl hne
        | cons q qs => exact ⟨q, qs, rfl⟩
      simp only [List.tail_cons]
      have hL : qs.length < N := by
        simp only [List.length_cons] at hN
        omega
      have := ih qs.length hL qs rfl sub
      unfold SFolder.get specGet getFuel at this
      simp only [List.length_cons, specGetF, hhit]
      exact this

/-! ## Case-insensitivity of path resolution -/

theorem char_toNat_inj {a b : Char} (h : a.toNat = b.toNat) : a = b := by
  rw [← Char.ofNat_toNat a, ← Char.ofNat_toNat b, h]

theorem eqIC_eq {a b : String} :
    eqIgnoreAsciiCase a b = true ↔ a.data.map asciiLower = b.data.map asciiLower := by
  simp [eqIgnoreAsciiCase]

theorem findFile_congr (fs : List SFile) {p p' : String}
    (h : p.data.map asciiLower = p'.data.map asciiLower) :
    findFile fs p = findFile fs p' := by
  unfold findFile
  have : (fun f : SFile => eqIgnoreAsciiCase f.name p) =
      (fun f : SFile => eqIgnoreAsciiCase f.name p') := by
    funext f
    simp [eqIgnoreAsciiCase, h]
  rw [this]

theorem findFolder_congr (ds : List SFolder) {p p' : String}
    (h : p.data.map asciiLower = p'.data.map asciiLower) :
    findFolder ds p = findFolder ds p' := by
  unfold findFolder
  have : (fun d : SFolder => eqIgnoreAsciiCase d.name p) =
      (fun d : SFolder => eqIgnoreAsciiCase d.name p') := by
    funext d
    simp [eqIgnoreAsciiCase, h]
  rw [this]

/-- Lower-equal segment lists resolve identically at every fuel. -/
theorem getScanF_congr : ∀ (fu : Nat) (folder : SFolder) (scan scan' parts parts' :
    List String),
    scan.map (fun s => s.data.map asciiLower) = scan'.map (fun s => s.data.map asciiLower) →
    parts.map (fun s => s.data.map asciiLower) =
      parts'.map (fun s => s.data.map asciiLower) →
    getScanF fu folder scan parts = getScanF fu folder scan' parts' := by
  intro fu
  induction fu with
  | zero => intro _ _ _ _ _ _ _; rfl
  | succ fu ih =>
    intro folder scan scan' parts parts' hs hp
    cases scan with
    | nil =>
      cases scan' with
      | nil => rfl
      | cons _ _ => simp at hs
    | cons part rest =>
      cases scan' with
      | nil => simp at hs
      | cons part' rest' =>
        simp only [List.map_cons, List.cons.injEq] at hs
        simp only [getScanF]
        rw [findFile_congr folder.files hs.1, findFolder_congr folder.folders hs.1]
        rcases findFile folder.files part' with _ | f
        · rcases findFolder folder.folders part' with _ | sub
          · exact ih folder rest rest' parts parts' hs.2 hp
          · have htail : parts.tail.map (fun s => s.data.map asciiLower) =
                parts'.tail.map (fun s => s.data.map asciiLower) := by
              rw [List.map_tail, List.map_tail, hp]
            exact ih sub parts.tail parts'.tail parts.tail parts'.tail htail htail
        · rfl

theorem asciiLower_slash {c : Char} : asciiLower c = '/' ↔ c = '/' := by
  unfold asciiLower
  split
  case isTrue h =>
    constructor
    · intro he
      exfalso
      have hle : 65 ≤ c.toNat ∧ c.toNat ≤ 90 := by
        obtain ⟨h1, h2⟩ := h
        exact ⟨h1, h2⟩
      have hv : (c.toNat + 32).isValidChar := Or.inl (by omega)
      have := congrArg Char.toNat he
      rw [char_toNat_ofNat hv] at this
      have : c.toNat + 32 = 47 := this
      omega
    · intro he
      subst he
      simp at h
  case isFalse h => exact Iff.rfl

theorem splitSeg_congr : ∀ (cs ds : List Char) (acc acc' : List Char),
    cs.map asciiLower = ds.map asciiLower → acc.map asciiLower = acc'.map asciiLower →
    (splitSeg cs acc).map (fun s => s.data.map asciiLower) =
      (splitSeg ds acc').map (fun s => s.data.map asciiLower) := by
  intro cs
  induction cs with
  | nil =>
    intro ds acc acc' hcd hacc
    cases ds with
    | nil =>
      simp only [splitSeg, List.map_cons, List.map_nil]
      rw [List.map_reverse, List.map_reverse, hacc]
    | cons _ _ => simp at hcd
  | cons c cs ih =>
    intro ds acc acc' hcd hacc
    cases ds with
    | nil => simp at hcd
    | cons d ds =>
      simp only [List.map_cons, List.cons.injEq] at hcd
      simp only [splitSeg]
      by_cases hc : c = '/'
      · have hd : d = '/' := by
          rw [← asciiLower_slash, ← hcd.1, hc]
          simp [asciiLower]
        rw [if_pos hc, if_pos hd]
        simp only [List.map_cons]
        rw [List.map_reverse, List.map_reverse, hacc, ih ds [] [] hcd.2 rfl]
      · have hd : d ≠ '/' := by
          intro he
          apply hc
          rw [← asciiLower_slash, hcd.1, he]
          simp [asciiLower]
        rw [if_neg hc, if_neg hd]
        exact ih ds (c :: acc) (d :: acc') hcd.2 (by simp [hcd.1, hacc])

/-- Case variants of a path resolve identically through `Archive::get`. -/
theorem archive_get_congr (a : Archive) (p p' : String)
    (h : eqIgnoreAsciiCase p p' = true) : a.get p = a.get p' := by
  unfold Archive.get
  have hseg := splitSeg_congr p.data p'.data [] [] (eqIC_eq.mp h) rfl
  have hlen : (splitSeg p.data []).length = (splitSeg p'.data []).length := by
    have := congrArg List.length hseg
    simpa using this
  unfold SFolder.get getFuel getMeasure
  rw [hlen, getScanF_congr _ a.root _ _ _ _ hseg hseg]

/-! ## Lookups return descriptors from the tree and do not mutate -/

theorem getScanF_mem : ∀ (fu : Nat) (folder : SFolder) (scan parts : List String)
    (f : SFile), getScanF fu folder scan parts = some (some f) → FileInTree f folder := by
  intro fu
  induction fu with
  | zero => intro _ _ _ _ h; cases h
  | succ fu ih =>
    intro folder scan parts f h
    cases scan with
    | nil => simp [getScanF] at h
    | cons part rest =>
      simp only [getScanF] at h
      rcases hf : findFile folder.files part with _ | f'
      · rw [hf] at h
        rcases hd : findFolder folder.folders part with _ | sub
        · rw [hd] at h
          exact ih folder rest parts f h
        · rw [hd] at h
          have hsub := ih sub parts.tail parts.tail f h
          have hmem : sub ∈ folder.folders := List.mem_of_find?_eq_some hd
          cases folder with
          | mk n fs ds => exact FileInTree.there hmem hsub
      · rw [hf] at h
        simp only [Option.some.injEq] at h
        have hmem : f' ∈ folder.files := List.mem_of_find?_eq_some hf
        cases folder with
        | mk n fs ds =>
          rw [← h]
          exact FileInTree.here hmem

theorem get_mem {folder : SFolder} {parts : List String} {f : SFile}
    (h : SFolder.get folder parts = some f) : FileInTree f folder := by
  unfold SFolder.get at h
  rcases hq : getScanF (getFuel parts parts) folder parts parts with _ | r
  · rw [hq] at h
    cases h
  · rw [hq] at h
    simp only [Option.getD_some] at h
    rw [h] at hq
    exact getScanF_mem _ folder parts parts f hq

/-! ## The magic check, characterised on raw bytes -/

theorem readString_magic_iff (l r : Bytes) :
    readString 3 l = some ("SAH", r) ↔ l.take 3 = [83, 65, 72] ∧ r = l.drop 3 := by
  constructor
  · intro h
    obtain ⟨hr, hlen⟩ := readString_some h
    refine ⟨?_, hr⟩
    rw [readString] at h
    have ht : takeBytes 3 l = some (l.take 3, l.drop 3) := by
      unfold takeBytes
      rw [if_pos hlen]
    rw [ht, Option.map_some'] at h
    simp only [Option.some.injEq, Prod.mk.injEq] at h
    obtain ⟨hstr, -⟩ := h
    have hlen3 : (l.take 3).length = 3 := by
      simp only [List.length_take]
      omega
    by_cases hz : (l.take 3).getLast? = some 0
    · exfalso
      rw [if_pos hz] at hstr
      have hdl : ((l.take 3).dropLast).length = 2 := by
        simp [List.length_dropLast, hlen3]
      have hle := utf8Lossy_length_le ((l.take 3).dropLast)
      have hdata := congrArg String.data hstr
      have h3 := congrArg List.length hdata
      simp only at h3
      rw [hdl] at hle
      have : (utf8Lossy (l.take 3).dropLast).length = ("SAH".data).length := h3
      rw [show ("SAH".data).length = 3 from rfl] at this
      omega
    · rw [if_neg hz] at hstr
      have hdata := congrArg String.data hstr
      have := utf8Lossy_ascii_inj "SAH".data (l.take 3) hdata (by decide)
        (by rw [hlen3]; rfl)
      rw [this]
      rfl
  · rintro ⟨h3, rfl⟩
    have hlen : 3 ≤ l.length := by
      have := congrArg List.length h3
      simp only [List.length_take, List.length_cons, List.length_nil] at this
      omega
    rw [readString]
    have ht : takeBytes 3 l = some (l.take 3, l.drop 3) := by
      unfold takeBytes
      rw [if_pos hlen]
    rw [ht, Option.map_some', h3]
    rw [show String.mk (utf8Lossy (if ([83, 65, 72] : Bytes).getLast? = some 0 then
      ([83, 65, 72] : Bytes).dropLast else [83, 65, 72])) = "SAH" from by decide]

/-- A failed magic comparison aborts the load before any tree mutation. -/
theorem parse_bad_magic {a : Archive}
    (hbad : ∀ r, readString 3 (a.header_file.contents.drop a.header_file.pos) ≠
      some ("SAH", r)) :
    a.parse.1 = false ∧ a.parse.2.root = a.root ∧ a.parse.2.data_file = a.data_file := by
  rw [Archive.parse.eq_def]
  simp only
  rcases h1 : readString 3 (a.header_file.contents.drop a.header_file.pos)
    with _ | ⟨magic, r1⟩
  · exact ⟨rfl, rfl, rfl⟩
  · have hm : magic ≠ "SAH" := by
      intro he
      subst he
      exact hbad r1 h1
    simp only
    rw [if_not_sah hm]
    exact ⟨rfl, rfl, rfl⟩

/-! ## Well-formedness of the example tree -/

theorem wf_exTree : WFolder exTree := by
  unfold exTree
  refine WFolder.mk (by decide) (by decide) (by decide) ?_ ?_
  · intro f hf
    simp only [List.mem_singleton] at hf
    subst hf
    decide
  · intro d hd
    simp only [List.mem_singleton] at hd
    subst hd
    refine WFolder.mk (by decide) (by decide) (by decide) ?_ ?_
    · intro f hf
      simp only [List.mem_singleton] at hf
      subst hf
      decide
    · intro d hd
      simp at hd

/-! ## The claims -/

set_option maxRecDepth 100000

/-- C1: Refuted at a concrete input.  `Archive.file_data` does not fail when
the requested range `[offset, offset + length)` exceeds the data file:
asking for 5 bytes at offset 1 of a 3-byte data file returns the 2
available bytes padded with 3 residual zero bytes, because the count
returned by the unchecked positioned read is ignored and the zero-filled
allocation is returned whole. -/
theorem c1_file_data_pads_short_read :
    shortArchive.file_data ⟨"f", 1, 5, 0⟩ =
      ([2, 3, 0, 0, 0], ⟨⟨[], 0⟩, ⟨[1, 2, 3], 3⟩, SFolder.new "data"⟩) := rfl

/-- C2: Path resolution follows exactly the claimed algorithm: the
source-shaped resolver `SFolder.get` coincides with `specGet`, the literal
rendering of the claim's scan-forward/return-file/drop-front-and-recurse
description, and `Archive.get` is that resolver applied to the path split
on `/`. -/
theorem c2_resolver_algorithm :
    (∀ (folder : SFolder) (parts : List String),
      SFolder.get folder parts = specGet folder parts) ∧
    ∀ (a : Archive) (path : String),
      (a.get path).1 = specGet a.root (splitSeg path.data []) :=
  ⟨fun folder parts => get_eq_specGet parts folder,
   fun a path => get_eq_specGet (splitSeg path.data []) a.root⟩

/-- C3: Truncating the header of any well-formed archive at any point makes
the whole load fail: `Archive.openM` returns `none`, so no archive value
and no partial tree is surfaced to the caller. -/
theorem c3_truncation_rejected (f : SFolder) (hwf : WFolder f) (d : Bytes) (k : Nat)
    (hk : k < (mkHeader f).length) :
    Archive.openM ((mkHeader f).take k) d = none :=
  open_trunc_none f hwf d k hk

theorem c3_witness : Archive.openM ((mkHeader exTree).take 60) [] = none :=
  c3_truncation_rejected exTree wf_exTree [] 60 (by decide)

/-- C4 (counterexample to the claim as stated): the 3-byte magic read does
strip a trailing zero byte before building the string — `readString 3` on
`[83, 65, 0]` yields the 2-character string `"SA"`, not a 3-character
string ending in a zero character, so the comparison is not performed on
the raw 3 bytes with no terminator stripped. -/
theorem c4_counterexample :
    readString 3 [83, 65, 0] = some ("SA", []) ∧
    "SA" ≠ String.mk [Char.ofNat 83, Char.ofNat 65, Char.ofNat 0] := by decide

/-- C4 (amended): although `readString` strips a trailing zero, the
comparison against `"SAH"` still succeeds if and only if the three raw
header bytes are exactly ASCII `S`, `A`, `H`; on mismatch the parse
reports failure and leaves the tree and data handle unchanged, and a
successful parse really did see the magic. -/
theorem c4_magic_check :
    (∀ (l r : Bytes), readString 3 l = some ("SAH", r) ↔
      l.take 3 = [83, 65, 72] ∧ r = l.drop 3) ∧
    (∀ (a : Archive),
      (∀ r, readString 3 (a.header_file.contents.drop a.header_file.pos) ≠
        some ("SAH", r)) →
      a.parse.1 = false ∧ a.parse.2.root = a.root ∧
        a.parse.2.data_file = a.data_file) ∧
    ∀ (a a1 : Archive), a.parse = (true, a1) →
      ∃ r, readString 3 (a.header_file.contents.drop a.header_file.pos) =
        some ("SAH", r) := by
  refine ⟨readString_magic_iff, fun a h => parse_bad_magic h, ?_⟩
  intro a a1 hp
  obtain ⟨r1, rootLen, r3, rootName, r4, fs, ds, rr, h1, -⟩ := parse_success_inv hp
  exact ⟨r1, h1⟩

theorem c4_witness :
    readString 3 [83, 65, 72, 9] = some ("SAH", [9]) ∧
    (Archive.mk ⟨[0, 0, 0], 0⟩ ⟨[], 0⟩ (SFolder.new "data")).parse.1 = false :=
  ⟨(c4_magic_check.1 [83, 65, 72, 9] [9]).mpr (by decide),
   (c4_magic_check.2.1 (Archive.mk ⟨[0, 0, 0], 0⟩ ⟨[], 0⟩ (SFolder.new "data"))
     (fun r h => absurd ((c4_magic_check.1 _ r).mp h).1 (by decide))).1⟩

/-- C5 (counterexample to the claim as stated): invoking `parse` again on a
successfully opened archive does not re-decode the header — the header
handle sits at end of file, so the fresh 3-byte magic read fails and the
second parse reports failure instead of replacing the tree with an equal
one. -/
theorem c5_counterexample :
    Archive.openM exHeader exData = some exArchive ∧
    exArchive.parse.1 = false := ⟨rfl, rfl⟩

/-- C5 (amended): the decoded tree is indeed immutable — lookups and
payload reads never change it — but a repeated `parse` does not replace it
with an equal tree: a successful open leaves the header cursor at end of
file, and a parse started there fails and returns the archive unchanged. -/
theorem c5_tree_immutable (a : Archive) (p : String) (f : SFile) (h d : Bytes) :
    ((a.get p).2 = a) ∧
    ((a.file_data f).2.root = a.root) ∧
    (Archive.openM h d = some a →
      a.header_file.pos = a.header_file.contents.length) ∧
    (a.header_file.pos = a.header_file.contents.length →
      a.parse = (false, a)) := by
  refine ⟨rfl, rfl, ?_, parse_at_end⟩
  intro ho
  obtain ⟨r1, rootLen, r3, rootName, r4, fs, ds, rr, -, -, -, -, -, hhd, -⟩ :=
    parse_success_inv (openM_some_inv ho)
  rw [hhd]

theorem c5_witness :
    ((exArchive.get "item/item.sdata").2 = exArchive) ∧
    exArchive.parse = (false, exArchive) :=
  ⟨(c5_tree_immutable exArchive "item/item.sdata" ⟨"x", 0, 0, 0⟩ [] []).1,
   (c5_tree_immutable exArchive "x" ⟨"x", 0, 0, 0⟩ [] []).2.2.2 rfl⟩

/-- C6: The folder-block decoder consumes exactly the claimed byte layout:
for every well-formed folder, parsing the reference encoding — 4-byte LE
file count, then per file a 4-byte name length, the name bytes, an 8-byte
LE offset, a 4-byte LE length and a 4-byte LE signed checksum, then a
4-byte LE sub-folder count, then per sub-folder a 4-byte name length, the
name bytes and the recursively encoded block on the same cursor — succeeds,
rebuilds the folder with files and children in read order, and leaves any
trailing bytes unconsumed. -/
theorem c6_folder_block_layout (f : SFolder) (hwf : WFolder f) (rest : Bytes) :
    (SFolder.new f.name).parseP (encodeBody f ++ rest) = (true, f, rest) :=
  parseP_encode f hwf rest

theorem c6_witness :
    (SFolder.new exTree.name).parseP (encodeBody exTree ++ [7]) = (true, exTree, [7]) :=
  c6_folder_block_layout exTree wf_exTree [7]

/-- C7: The fixed-length text reader succeeds exactly when `n` bytes are
available (failing on a short input), consumes exactly `n` bytes from the
stream, decodes lossily — an invalid byte becomes the replacement
character rather than an error — and drops exactly one trailing zero byte
before decoding (an interior zero byte is kept). -/
theorem c7_fixed_length_reader :
    (∀ (n : Nat) (l : Bytes), (∃ s r, readString n l = some (s, r)) ↔ n ≤ l.length) ∧
    (∀ (n : Nat) (l : Bytes) (s : String) (r : Bytes),
      readString n l = some (s, r) → r = l.drop n) ∧
    readString 2 [255, 65] = some (String.mk [repl, 'A'], []) ∧
    readString 3 [97, 0, 0] = some (String.mk ['a', Char.ofNat 0], []) ∧
    readString 4 [97, 98, 99] = none := by
  refine ⟨?_, fun n l s r h => (readString_some h).1, by decide, by decide, by decide⟩
  intro n l
  constructor
  · rintro ⟨s, r, h⟩
    exact (readString_some h).2
  · intro hle
    refine ⟨String.mk (utf8Lossy (if (l.take n).getLast? = some 0 then
      (l.take n).dropLast else l.take n)), l.drop n, ?_⟩
    rw [readString]
    unfold takeBytes
    rw [if_pos hle]
    rfl

theorem c7_witness :
    (∃ s r, readString 2 [9, 9, 9] = some (s, r)) ∧ ([5, 6, 7] : Bytes).drop 2 = [7] :=
  ⟨(c7_fixed_length_reader.1 2 [9, 9, 9]).mpr (by decide),
   c7_fixed_length_reader.2.1 2 [5, 6, 7] (String.mk [Char.ofNat 5, Char.ofNat 6]) [7]
     (by decide)⟩

/-- C8: Path matching is case-insensitive on every segment: two paths that
agree up to ASCII letter case resolve identically through `Archive.get`. -/
theorem c8_case_insensitive (a : Archive) (p p' : String)
    (h : eqIgnoreAsciiCase p p' = true) : a.get p = a.get p' :=
  archive_get_congr a p p' h

theorem c8_witness :
    exArchive.get "Item/Item.sdata" = exArchive.get "item/item.sdata" :=
  c8_case_insensitive exArchive "Item/Item.sdata" "item/item.sdata" (by decide)

/-- C9: `Archive.get` has no side effect — the returned archive state is
exactly the input archive, tree and both handles included — and any
descriptor it returns is a copy of a node of the unchanged tree. -/
theorem c9_get_frame (a : Archive) (path : String) :
    (a.get path).2 = a ∧
    ∀ f, (a.get path).1 = some f → FileInTree f a.root :=
  ⟨rfl, fun _ h => get_mem h⟩

theorem c9_witness :
    (exArchive.get "item/item.sdata").2 = exArchive ∧
    FileInTree ⟨"item.sdata", 3, 2, -7⟩ exArchive.root :=
  ⟨(c9_get_frame exArchive "item/item.sdata").1,
   (c9_get_frame exArchive "item/item.sdata").2 ⟨"item.sdata", 3, 2, -7⟩ (by decide)⟩

/-- C10: Every file of a decoded tree satisfies `length < 2^32`: the
on-disk length field is a 4-byte little-endian value widened without
arithmetic, so the bound is an invariant of every successfully opened
archive. -/
theorem c10_length_bound (h d : Bytes) (a : Archive)
    (ho : Archive.openM h d = some a) (hb : ∀ b ∈ h, b < 256) :
    ∀ g, FileInTree g a.root → g.length < 4294967296 :=
  openM_length_bound ho hb

theorem c10_witness : (⟨"item.sdata", 3, 2, -7⟩ : SFile).length < 4294967296 := by
  have hmem : FileInTree ⟨"item.sdata", 3, 2, -7⟩ exArchive.root := by
    show FileInTree _ exTree
    unfold exTree
    exact FileInTree.there (List.mem_singleton.mpr rfl)
      (FileInTree.here (List.mem_singleton.mpr rfl))
  exact c10_length_bound exHeader exData exArchive rfl (by decide)
    ⟨"item.sdata", 3, 2, -7⟩ hmem
